import Mathlib

/-!
Verification of the Knight's-tour puzzle implementation (knight.c and the
hamilton-cycle library).  The definitions below are a shallow embedding of
the C sources: C `int` values become `ℤ`, C arrays become total functions
out of `ℤ` (an access outside the allocated range is modelled as a "ghost"
cell holding the value the embedding's initialiser gives it), characters
are carried as their ASCII codes where the C code does arithmetic on them,
and the C loops become fuel-based recursions whose fuel is large enough
for every terminating run (fuel exhaustion, like a failing `assert`, is
modelled as `none`).
-/

namespace KnightGame

/-- C integer division (truncation toward zero), as used by the sources. -/
def cdiv (a b : ℤ) : ℤ := Int.tdiv a b

/-- C integer remainder (sign follows the dividend), paired with `cdiv`. -/
def cmod (a b : ℤ) : ℤ := Int.tmod a b

/-- Pointwise array update: the store `upd f i v` models `f[i] = v`. -/
def upd {α : Type} (f : ℤ → α) (i : ℤ) (v : α) : ℤ → α :=
  fun j => if j = i then v else f j

@[simp] theorem upd_same {α : Type} (f : ℤ → α) (i : ℤ) (v : α) : upd f i v i = v := by
  simp [upd]

theorem upd_other {α : Type} (f : ℤ → α) (i j : ℤ) (v : α) (h : j ≠ i) :
    upd f i v j = f j := by
  simp [upd, h]

/-- `knight_moves` from knight.c: the 8 knight moves ordered clockwise plus
the `{0, 0}` "move nowhere" in slot 8 (reading any other index models the
out-of-bounds access by also giving `(0, 0)`). -/
def knightMoves (i : ℤ) : ℤ × ℤ :=
  if i = 0 then (1, -2)
  else if i = 1 then (2, -1)
  else if i = 2 then (2, 1)
  else if i = 3 then (1, 2)
  else if i = 4 then (-1, 2)
  else if i = 5 then (-2, 1)
  else if i = 6 then (-2, -1)
  else if i = 7 then (-1, -2)
  else (0, 0)

/-- `attempt_move` from knight.c: apply a move to a cell of the w×h grid,
returning the destination cell index or -1 when it falls off the board. -/
def attemptMove (pos : ℤ) (mv : ℤ × ℤ) (w h : ℤ) : ℤ :=
  let newx := cmod pos w + mv.1
  let newy := cdiv pos w + mv.2
  if 0 ≤ newx ∧ newx < w ∧ 0 ≤ newy ∧ newy < h then newy * w + newx else -1

/-- `num_neighbors` from knight.c: counts the in-bounds knight neighbours
of `pos` whose grid entry equals 9 (the unvisited marker of earlier
revisions of the generator). -/
def numNeighbors (grid : ℤ → ℤ) (pos w h : ℤ) : ℤ :=
  (List.range 8).foldl
    (fun count i =>
      let neighbor := attemptMove pos (knightMoves (i : ℤ)) w h
      if 0 ≤ neighbor ∧ grid neighbor = 9 then count + 1 else count)
    0

/-- The destination-selection loop of `new_game_desc` (knight.c lines
576-589): scan the shuffled direction order `ord`; for every in-bounds
not-yet-visited destination compare `num_neighbors` against the current
minimum (initially 8) and keep the strictly smaller one.  The result is
`(min_neigh, next_pos, move_i)`. -/
def chooseNext (grid : ℤ → ℤ) (pos w h : ℤ) (ord : List ℤ) : ℤ × ℤ × ℤ :=
  ord.foldl
    (fun st mi =>
      let neighbor := attemptMove pos (knightMoves mi) w h
      if 0 ≤ neighbor ∧ grid neighbor = 0 then
        let num := numNeighbors grid neighbor w h
        if num < st.1 then (num, neighbor, mi) else st
      else st)
    (8, -1, -1)

/-- The claim's (and spec §4.2's) selection criterion, stated in the
spec's own words: the number of in-bounds knight neighbours of `pos` that
are still unvisited (grid entry 0) during the generation walk.  This is
the quantity Warnsdorff's rule minimises; it is kept separate from
`numNeighbors` (the code's counter) so the two can be compared. -/
def specUnvisitedNeighbors (grid : ℤ → ℤ) (pos w h : ℤ) : ℤ :=
  (List.range 8).foldl
    (fun count i =>
      let neighbor := attemptMove pos (knightMoves (i : ℤ)) w h
      if 0 ≤ neighbor ∧ grid neighbor = 0 then count + 1 else count)
    0

/-- `struct game_state` from knight.c.  Arrays are total functions on ℤ;
`conn_pairs` stores ASCII codes (48-56 for the digits 0-8), as the C code
computes with the raw character values. -/
structure GameState where
  w : ℤ
  h : ℤ
  nunvisited : ℤ
  ncells : ℤ
  ends0 : ℤ
  ends1 : ℤ
  grid : ℤ → ℤ
  conn_pairs : ℤ → ℤ
  start_pairs : ℤ → Bool
  opposite_ends : ℤ → ℤ
  cx : ℤ
  cy : ℤ

/-- `init_game_state` from knight.c.  The C code initialises indices
0..w*h-1 of `grid`/`conn_pairs`/`start_pairs` and 0..w*h+1 of
`opposite_ends`; the embedding extends the same values to the ghost
indices. -/
def initGameState (w h : ℤ) : GameState where
  w := w
  h := h
  nunvisited := -1
  ncells := w * h
  ends0 := -1
  ends1 := -1
  grid := fun _ => 0
  conn_pairs := fun _ => 56
  start_pairs := fun _ => false
  opposite_ends := fun i => i
  cx := -1
  cy := -1

/-- `connect_ends` from knight.c: link the opposite ends of the two paths
ending at `a` and `b`, then demote `a`/`b` to interior (-1) when they are
no longer endpoints.  All four array accesses happen in the C statement
order. -/
def connectEnds (oe : ℤ → ℤ) (a b : ℤ) : ℤ → ℤ :=
  let a_end := oe a
  let b_end := oe b
  let oe1 := upd oe a_end b_end
  let oe2 := upd oe1 b_end a_end
  let oe3 := if oe2 (oe2 a) ≠ a then upd oe2 a (-1) else oe2
  if oe3 (oe3 b) ≠ b then upd oe3 b (-1) else oe3

/-- `dup_game` from knight.c: a fresh `init_game_state` whose scalar
fields and in-range array entries are copied from `state`.  The C loop
copies only indices 0..w*h-1 (arrays of size 2*w*h: 0..2*w*h-1), so the
two sentinel entries of `opposite_ends` and all ghost cells keep their
`init_game_state` values, and `cx`/`cy` are not copied at all. -/
def dupGame (state : GameState) : GameState :=
  let base := initGameState state.w state.h
  { base with
    ncells := state.ncells
    nunvisited := state.nunvisited
    ends0 := state.ends0
    ends1 := state.ends1
    grid := fun i =>
      if 0 ≤ i ∧ i < state.w * state.h then state.grid i else base.grid i
    opposite_ends := fun i =>
      if 0 ≤ i ∧ i < state.w * state.h then state.opposite_ends i
      else base.opposite_ends i
    conn_pairs := fun i =>
      if 0 ≤ i ∧ i < 2 * (state.w * state.h) then state.conn_pairs i
      else base.conn_pairs i
    start_pairs := fun i =>
      if 0 ≤ i ∧ i < 2 * (state.w * state.h) then state.start_pairs i
      else base.start_pairs i }

/-- The digit-scanning part of `sscanf("%d%n")` / `atoi` on a digit
string: returns the value read and the number of characters consumed. -/
def scanNat : List Char → ℤ × ℕ
  | [] => (0, 0)
  | c :: cs =>
    if c.isDigit then
      let rest := scanNat cs
      -- value accumulates most-significant-first, so rebuild from the tail
      (((c.toNat : ℤ) - 48) * (10 : ℤ) ^ rest.2 + rest.1, rest.2 + 1)
    else (0, 0)

/-- `atoi` as used on the numeric tail of a move string: an optional minus
sign followed by digits (no whitespace appears in the generated inputs). -/
def atoi (cs : List Char) : ℤ :=
  match cs with
  | '-' :: rest => -(scanNat rest).1
  | _ => (scanNat cs).1

/-- The grid-reading loop of `new_game` (knight.c lines 645-655): read one
digit per cell.  A `'1'` records an endpoint — the C condition
`gs->ends > 0` compares the decayed array pointer (always non-null), so
`ends[1]` is overwritten each time and `ends[0]` is never assigned.  A
`'0'` counts an unvisited cell and marks it -1 in `opposite_ends`. -/
def newGameCells : ℕ → List Char → ℤ → GameState → GameState × List Char
  | 0, p, _, gs => (gs, p)
  | _ + 1, [], _, gs => (gs, [])
  | n + 1, c :: rest, i, gs =>
    let cv := (c.toNat : ℤ) - 48
    let gs1 := { gs with grid := upd gs.grid i cv }
    let gs2 :=
      if cv = 1 then { gs1 with ends1 := i }
      else if cv = 0 then
        { gs1 with
          nunvisited := gs1.nunvisited + 1
          opposite_ends := upd gs1.opposite_ends i (-1) }
      else gs1
    newGameCells n rest (i + 1) gs2

/-- The hint-reading loop of `new_game` (knight.c lines 658-675): while
characters remain, skip the separator, read a direction digit and a cell
number, store the connection in the first free slot of the cell (slot 0
first), store the opposite direction at the destination cell, flag both as
starting hints, and `connect_ends` the two cells.  The first argument is
fuel: every iteration consumes at least two characters, so any fuel
larger than half the list length makes the recursion exhaustive. -/
def parseConns : ℕ → List Char → GameState → GameState
  | 0, _, gs => gs
  | _ + 1, [], gs => gs
  | _ + 1, [_], gs => gs
  | n + 1, _sep :: dc :: rest2, gs =>
    let i := (dc.toNat : ℤ) - 48
    let scanned := scanNat rest2
    let pos := scanned.1
    let index := 2 * pos + (if gs.conn_pairs (2 * pos) ≠ 56 then 1 else 0)
    let gs1 :=
      { gs with
        conn_pairs := upd gs.conn_pairs index (i + 48)
        start_pairs := upd gs.start_pairs index true }
    let start := pos
    let pos2 := pos + (knightMoves i).2 * gs.w + (knightMoves i).1
    let index2 : ℤ := 2 * pos2 + (if gs1.conn_pairs (2 * pos2) ≠ (56 : ℤ) then 1 else 0)
    let gs2 :=
      { gs1 with
        conn_pairs := upd gs1.conn_pairs index2 (cmod (i + 4) 8 + 48)
        start_pairs := upd gs1.start_pairs index2 true }
    let gs3 := { gs2 with opposite_ends := connectEnds gs2.opposite_ends start pos2 }
    parseConns n (rest2.drop scanned.2) gs3

/-- `new_game` from knight.c: build the fresh state, read the w*h grid
digits, set `ncells`, then read the revealed-connection triples.
(`nunvisited` starts from the -1 left by `init_game_state`; the C code
never resets it before counting.) -/
def newGame (w h : ℤ) (desc : List Char) : GameState :=
  let gs0 := initGameState w h
  let read := newGameCells (w * h).toNat desc 0 gs0
  let gs1 := { read.1 with ncells := w * h - read.1.nunvisited }
  parseConns (read.2.length + 1) read.2 gs1

/-- The do-while body of `follow_path` (knight.c lines 961-968), with fuel:
step from `pos` along direction `i`, pick the next direction at the new
cell (the slot other than the arrival direction if slot 0 is the arrival,
else slot 0), and return the new cell as soon as it has a free slot.
Returning to `start` without finding a free slot reaches the failing
`assert`, modelled (like fuel exhaustion) as `none`. -/
def followPathLoop (gs : GameState) (start : ℤ) : ℕ → ℤ → ℤ → Option ℤ
  | 0, _, _ => none
  | fuel + 1, pos, i =>
    let pos2 := pos + (knightMoves i).2 * gs.w + (knightMoves i).1
    let c0 := gs.conn_pairs (2 * pos2)
    let c1 := gs.conn_pairs (2 * pos2 + 1)
    let i2 := (if c0 - 48 = cmod (i + 4) 8 then c1 else c0) - 48
    if c0 = 56 ∨ c1 = 56 then some pos2
    else if pos2 ≠ start then followPathLoop gs start fuel pos2 i2
    else none

/-- `follow_path` from knight.c: walk the connection chain from `start`
(beginning with the connection in slot 0, or slot 1 when slot 0 is free)
to the first cell with a free connection slot. -/
def followPath (gs : GameState) (start : ℤ) : Option ℤ :=
  let c0 := gs.conn_pairs (2 * start)
  let c1 := gs.conn_pairs (2 * start + 1)
  let i := (if c0 = 56 then c1 else c0) - 48
  followPathLoop gs start ((gs.w * gs.h).toNat + 2) start i

/-- The loop of `execute_move` that marks every cell of a newly closed
loop with -3 (knight.c lines 999-1007), with fuel.  `new_pos` starts at
the destination cell and `i` is the arrival direction there. -/
def loopMark (cp : ℤ → ℤ) (w : ℤ) (start : ℤ) :
    ℕ → ℤ → ℤ → (ℤ → ℤ) → Option (ℤ → ℤ)
  | 0, _, _, _ => none
  | fuel + 1, new_pos, i, oe =>
    if new_pos = start then some oe
    else
      let c0 := cp (2 * new_pos)
      let c1 := cp (2 * new_pos + 1)
      let iNext := (if c0 - 48 = i then c1 else c0) - 48
      let np2 := new_pos + (knightMoves iNext).2 * w + (knightMoves iNext).1
      loopMark cp w start fuel np2 (cmod (iNext + 4) 8) (upd oe np2 (-3))

/-- The loop of `execute_move` that, after an edge of a -3-marked loop is
removed, walks the former loop recomputing each cell's mark from the
parity of its remaining connections (-1 clean, -2 parity error); knight.c
lines 1031-1042, with fuel. -/
def loopUnmark (cp grid : ℤ → ℤ) (w : ℤ) (start : ℤ) :
    ℕ → ℤ → ℤ → (ℤ → ℤ) → Option (ℤ → ℤ)
  | 0, _, _, _ => none
  | fuel + 1, new_pos, i, oe =>
    if new_pos = start then some oe
    else
      let c0 := cp (2 * new_pos)
      let c1 := cp (2 * new_pos + 1)
      let iNext := (if i = c0 - 48 then c1 else c0) - 48
      let np2 := new_pos + (knightMoves iNext).2 * w + (knightMoves iNext).1
      let mark := if cmod (cp (2 * np2) + cp (2 * np2 + 1) + grid np2) 2 = 0
        then (-1 : ℤ) else -2
      loopUnmark cp grid w start fuel np2 (cmod (iNext + 4) 8) (upd oe np2 mark)

/-- Assembling the state `execute_move` returns: only `conn_pairs`,
`opposite_ends` and the cursor (set from the destination cell `pos2`,
knight.c lines 1062-1063) change relative to the `dup_game` copy. -/
def emResult (base : GameState) (cp oe : ℤ → ℤ) (pos2 : ℤ) : GameState :=
  { base with
    conn_pairs := cp
    opposite_ends := oe
    cx := cmod pos2 base.w
    cy := cdiv pos2 base.w }

/-- The body of `execute_move` from knight.c, computing the new
`conn_pairs` array, the new `opposite_ends` array and the destination
cell (from which the cursor is set) on the `dup_game` copy `gs`.  The
move string is two offset digits (dx+2, dy+2) followed by the decimal
origin cell.  A non-knight offset or an out-of-range *origin* is rejected
with NULL (`none`); the destination is never bounds-checked.  A direction
already present at the origin is a retraction, anything else adds a
connection (into slot 1 if slot 1 is free, else overwriting slot 0).
`none` also models the C executions that crash or hang (failing `assert`
in `follow_path`, non-terminating loop walks); a move string of fewer
than two characters (never produced by `interpret_move`) reads past the
string in C and is modelled as `none`. -/
def executeMoveCore (state : GameState) (mv : List Char) :
    Option ((ℤ → ℤ) × (ℤ → ℤ) × ℤ) :=
  match mv with
  | c0 :: c1 :: rest =>
    let size := state.w * state.h
    let gs := dupGame state
    let dx := (c0.toNat : ℤ) - 48 - 2
    let dy := (c1.toNat : ℤ) - 48 - 2
    let pos := atoi rest
    if min |dx| |dy| ≠ 1 ∨ max |dx| |dy| ≠ 2 ∨ pos < 0 ∨ pos ≥ size then none
    else
      -- the index i of {dx, dy} in knight_moves
      let i := (if dx > 0 then (2 : ℤ) else 5) +
        cdiv dx |dx| * (dy + (if dy > 0 then -1 else 0))
      let start := pos
      let pos2 := pos + dy * gs.w + dx
      if i ≠ gs.conn_pairs (2 * start) - 48 ∧ i ≠ gs.conn_pairs (2 * start + 1) - 48 then
        -- a new connection, not a backtrack
        let cp1 := upd gs.conn_pairs
          (2 * start + (if gs.conn_pairs (2 * start + 1) = 56 then 1 else 0)) (i + 48)
        let i2 := cmod (i + 4) 8
        let cp2 := upd cp1
          (2 * pos2 + (if cp1 (2 * pos2 + 1) = 56 then 1 else 0)) (i2 + 48)
        if gs.opposite_ends start = pos2 then
          -- the connection closes a loop: mark every cell on it with -3
          let oe0 := upd (upd gs.opposite_ends start (-3)) pos2 (-3)
          match loopMark cp2 gs.w start (size.toNat + 2) pos2 i2 oe0 with
          | none => none
          | some oeL => some (cp2, oeL, pos2)
        else
          let oe1 := connectEnds gs.opposite_ends start pos2
          let oe2 :=
            if oe1 pos2 = -1 ∧ cmod (cp2 (2 * pos2) + cp2 (2 * pos2 + 1) + gs.grid pos2) 2 = 1
            then upd oe1 pos2 (-2) else oe1
          let oe3 :=
            if oe2 start = -1 ∧ cmod (cp2 (2 * start) + cp2 (2 * start + 1) + gs.grid start) 2 = 1
            then upd oe2 start (-2) else oe2
          some (cp2, oe3, pos2)
      else
        -- the user is backtracking, remove the connection
        let cp1 := upd gs.conn_pairs
          (2 * start + (if i = gs.conn_pairs (2 * start + 1) - 48 then 1 else 0)) 56
        let i2 := cmod (i + 4) 8
        let cp2 := upd cp1
          (2 * pos2 + (if i2 = cp1 (2 * pos2 + 1) - 48 then 1 else 0)) 56
        if gs.opposite_ends start = -3 then
          match loopUnmark cp2 gs.grid gs.w start (size.toNat + 2) pos2 i2 gs.opposite_ends with
          | none => none
          | some oeL => some (cp2, upd (upd oeL start pos2) pos2 start, pos2)
        else
          let gsW := { gs with conn_pairs := cp2 }
          let stepStart : Option (ℤ → ℤ) :=
            if gs.opposite_ends start < 0 then
              (followPath gsW start).map
                (fun r => upd (upd gs.opposite_ends start r) r start)
            else some (upd gs.opposite_ends start start)
          match stepStart with
          | none => none
          | some oeA =>
            let stepEnd : Option (ℤ → ℤ) :=
              if oeA pos2 < 0 then
                (followPath gsW pos2).map (fun r => upd (upd oeA pos2 r) r pos2)
              else some (upd oeA pos2 pos2)
            match stepEnd with
            | none => none
            | some oeB => some (cp2, oeB, pos2)
  | _ => none

/-- `execute_move` from knight.c: on success, the returned state is the
`dup_game` copy of the input with the new `conn_pairs`, the new
`opposite_ends`, and the cursor set from the destination cell. -/
def executeMove (state : GameState) (mv : List Char) : Option GameState :=
  (executeMoveCore state mv).map fun r => emResult (dupGame state) r.1 r.2.1 r.2.2

/-- The completion scan of `unique_solution` (knight.c lines 431-435),
with fuel: starting from the cell after the randomly drawn cell `first`
(`int start = random_upto(rs, w * h)` in the C code), walk cyclically
until either a cell with `opposite_ends ≠ -1` is found (the `break`) or
the walk arrives back at `first`. -/
def uniqueScanLoop (oe : ℤ → ℤ) (wh first : ℤ) : ℕ → ℤ → ℤ
  | 0, pos => pos
  | fuel + 1, pos =>
    if pos = first then pos
    else if oe pos ≠ -1 then pos
    else uniqueScanLoop oe wh first fuel (cmod (pos + 1) wh)

/-- The final value of the scan's `pos`; `unique_solution` declares the
puzzle uniquely solved exactly when this equals `first` (knight.c line
437: `if (pos == start)`), i.e. when no cell *other than `first`* has an
`opposite_ends` entry different from -1. -/
def uniqueSolutionScan (oe : ℤ → ℤ) (wh first : ℤ) : ℤ :=
  uniqueScanLoop oe wh first (wh.toNat + 1) (cmod (first + 1) wh)

/-- The counters of `hamilton_run`'s adaptive-retry loop (hamilton.c):
the current iteration limit and the accumulated convergence successes and
failures. -/
structure RetryState where
  iter_limit : ℕ
  nok : ℕ
  nfail : ℕ
  deriving DecidableEq

/-- One trip around `hamilton_run`'s retry loop (hamilton.c lines
558-586), given whether `hamilton_try_converge` succeeded: a success
increments `nok`; a failure increments `nfail` and then, if
`nok < nfail / 2`, multiplies the limit by 3/2 and resets `nfail`
(`nok` is kept). -/
def hamiltonRetryStep (s : RetryState) (converged : Bool) : RetryState :=
  if converged then { s with nok := s.nok + 1 }
  else
    let nfail := s.nfail + 1
    if s.nok < nfail / 2 then
      { iter_limit := s.iter_limit * 3 / 2, nok := s.nok, nfail := 0 }
    else { s with nfail := nfail }

/-- The retry counters after a sequence of attempt outcomes (`true` =
converged), starting from the initial `iter_limit = 100`.  The outcome
list abstracts the randomised results of `hamilton_try_converge`. -/
def hamiltonRetryRun (outcomes : List Bool) : RetryState :=
  outcomes.foldl hamiltonRetryStep ⟨100, 0, 0⟩

/-- The retry step as the claim words it ("if the accumulated failures
exceed half the accumulated successes at the current limit, it multiplies
the iteration limit by 1.5 and resets the failure counter"), kept beside
`hamiltonRetryStep` for comparison. -/
def claimRetryStep (s : RetryState) (converged : Bool) : RetryState :=
  if converged then { s with nok := s.nok + 1 }
  else
    let nfail := s.nfail + 1
    if nfail > s.nok / 2 then
      { iter_limit := s.iter_limit * 3 / 2, nok := s.nok, nfail := 0 }
    else { s with nfail := nfail }

/-- The claim-worded retry counters over a sequence of outcomes. -/
def claimRetryRun (outcomes : List Bool) : RetryState :=
  outcomes.foldl claimRetryStep ⟨100, 0, 0⟩

/-! Concrete instances used by the counterexample evaluations. -/

/-- A 6×6 description whose 36 cells are all marked `'1'` and that
reveals no connections. -/
def desc36 : List Char := List.replicate 36 '1'

/-- The freshly loaded 6×6 state. -/
def kgS0 : GameState := newGame 6 6 desc36

/-- `kgS0` after the accepted move "436": connect cell 6 = (0,1) to cell
14 = (2,2) (offset dx=2, dy=1). -/
def kgS1 : GameState := (executeMove kgS0 ['4', '3', '6']).getD kgS0

/-- `kgS1` after the accepted move "4314": connect cell 14 to cell
22 = (4,3). -/
def kgS2 : GameState := (executeMove kgS1 ['4', '3', '1', '4']).getD kgS0

/-- `kgS2` after the accepted move "3014": a *third* connection at cell
14, toward cell 3 = (3,0) (offset dx=1, dy=-2). -/
def kgS3 : GameState := (executeMove kgS2 ['3', '0', '1', '4']).getD kgS0

/-- `kgS3` after the exact retraction of the move "3014". -/
def kgS4 : GameState := (executeMove kgS3 ['3', '0', '1', '4']).getD kgS0

/-- A reachable mid-walk grid of the 6×6 generator: the start cell 2 and
the path 2 → 13 → 9 → 22 → 14 have been visited (turn kinds 1/3/2/3 and
the head 1), everything else is still 0. -/
def c2grid : ℤ → ℤ := fun i =>
  if i = 2 then 1
  else if i = 13 then 3
  else if i = 9 then 2
  else if i = 22 then 3
  else if i = 14 then 1
  else 0

/-- An `opposite_ends` array of a 6×6 board in which cell 0 is still its
own isolated path (`opposite_ends[0] = 0`) and every other cell is
interior (-1). -/
def c1oe : ℤ → ℤ := fun i => if i = 0 then 0 else -1

/-! Connection chains.  The following definitions give names to the
structures `follow_path` walks over: a chain is a start cell plus a list
of knight-direction indices, each cell holding the connection characters
that link it to its neighbours on the chain and the two end cells keeping
a free (`'8'`) slot. -/

/-- The opposite direction, `(d + 4) % 8`. -/
def oppDir (d : ℤ) : ℤ := cmod (d + 4) 8

/-- One raw address step of the C code: `pos + knight_moves[d].y * w +
knight_moves[d].x` (no bounds check, exactly as `follow_path` and
`execute_move` compute destinations). -/
def cellStep (w c d : ℤ) : ℤ := c + (knightMoves d).2 * w + (knightMoves d).1

/-- The two connection slots of cell `c` hold exactly the character codes
`a` and `b`, in either order. -/
def slotsAre (gs : GameState) (c a b : ℤ) : Prop :=
  (gs.conn_pairs (2 * c) = a ∧ gs.conn_pairs (2 * c + 1) = b) ∨
  (gs.conn_pairs (2 * c) = b ∧ gs.conn_pairs (2 * c + 1) = a)

/-- Cell `c` has fewer than two connections: some slot still holds '8'. -/
def hasOpenSlot (gs : GameState) (c : ℤ) : Prop :=
  gs.conn_pairs (2 * c) = 56 ∨ gs.conn_pairs (2 * c + 1) = 56

/-- The cells of the chain starting at `c` and following the direction
list `ds`. -/
def chainCells (w c : ℤ) : List ℤ → List ℤ
  | [] => [c]
  | d :: ds => c :: chainCells w (cellStep w c d) ds

/-- The final cell of the chain starting at `c` with direction list `ds`. -/
def chainEnd (w c : ℤ) (ds : List ℤ) : ℤ :=
  ds.foldl (fun x d => cellStep w x d) c

/-- The connection character with which the walk along `ds` arrives at the
chain's final cell (`a` itself when `ds` is empty). -/
def arrAfter (a : ℤ) : List ℤ → ℤ
  | [] => a
  | d :: ds => arrAfter (oppDir d + 48) ds

/-- The per-cell conditions along a chain: arriving at `c` with
connection character `a` (56 at the head of a full chain), each step uses
a real direction `d` that differs from the arrival connection, the cell's
two slots hold exactly the arrival character and `d`'s character, and the
rest of the chain continues from the step's destination. -/
def chainLink (gs : GameState) : ℤ → ℤ → List ℤ → Prop
  | _, _, [] => True
  | c, a, d :: ds =>
    0 ≤ d ∧ d < 8 ∧ a ≠ d + 48 ∧ slotsAre gs c a (d + 48) ∧
    chainLink gs (cellStep gs.w c d) (oppDir d + 48) ds

/-- A full open chain from `c` with arrival character `a` (56 for a free
head slot): the per-cell conditions hold and the final cell keeps a free
slot besides its arrival connection. -/
def chainSlots (gs : GameState) (c a : ℤ) (ds : List ℤ) : Prop :=
  chainLink gs c a ds ∧ slotsAre gs (chainEnd gs.w c ds) (arrAfter a ds) 56

/-- The direction list of the reversed chain. -/
def revOpp (ds : List ℤ) : List ℤ := (ds.reverse).map oppDir

instance slotsAreDec (gs : GameState) (c a b : ℤ) : Decidable (slotsAre gs c a b) := by
  unfold slotsAre
  infer_instance

instance hasOpenSlotDec (gs : GameState) (c : ℤ) : Decidable (hasOpenSlot gs c) := by
  unfold hasOpenSlot
  infer_instance

instance chainLinkDec (gs : GameState) : (c a : ℤ) → (ds : List ℤ) → Decidable (chainLink gs c a ds)
  | _, _, [] => .isTrue trivial
  | c, a, d :: ds =>
    have : Decidable (chainLink gs (cellStep gs.w c d) (oppDir d + 48) ds) :=
      chainLinkDec gs _ _ ds
    by unfold chainLink; infer_instance

instance chainSlotsDec (gs : GameState) (c a : ℤ) (ds : List ℤ) :
    Decidable (chainSlots gs c a ds) := by
  unfold chainSlots
  infer_instance

/-- A 6×6 state whose only connection links cell 6 to cell 14 (direction
2 at cell 6, direction 6 back): the two-cell chain used as a concrete
open chain for `follow_path`. -/
def kgChainState : GameState :=
  { initGameState 6 6 with
    conn_pairs := upd (upd (fun _ => 56) 12 50) 28 54 }

/-! The `new_game_desc` serialiser (knight.c lines 612-630) and the
definitions needed to state its round trip through `new_game`. -/

/-- The single character `sprintf("%d", n)` prints for a digit value. -/
def digitChar (n : ℕ) : Char := Char.ofNat (48 + n)

/-- The decimal digits of `n`, most significant first, with explicit fuel
(any fuel above `n` is exhaustive). -/
def decDigitsAux : ℕ → ℕ → List ℕ
  | 0, _ => []
  | fuel + 1, n => if n < 10 then [n] else decDigitsAux fuel (n / 10) ++ [n % 10]

/-- The decimal digit sequence of `n`. -/
def decDigits (n : ℕ) : List ℕ := decDigitsAux (n + 1) n

/-- The characters `sprintf("%d", n)` prints for a non-negative value. -/
def natChars (n : ℕ) : List Char := (decDigits n).map digitChar

/-- The value of a digit sequence read most-significant-first, as the
`%d` scan accumulates it. -/
def digitsVal (ds : List ℕ) : ℤ := ds.foldl (fun (a : ℤ) (d : ℕ) => 10 * a + (d : ℤ)) 0

/-- The characters one iteration of the connection loop of `new_game_desc`
writes for `conn_pairs` index `i`: direction digit, destination cell in
decimal and a period when the guard
`move < 8 && i / 2 < attempt_move(i / 2, knight_moves[move], w, h)` holds,
nothing otherwise. -/
def connChars (gs : GameState) (i : ℕ) : List Char :=
  let mv := gs.conn_pairs i - 48
  let cell := cdiv i 2
  if mv < 8 ∧ cell < attemptMove cell (knightMoves mv) gs.w gs.h then
    digitChar mv.toNat :: (natChars cell.toNat ++ ['.'])
  else []

/-- The puzzle description built by `new_game_desc` (knight.c lines
612-630): one digit per grid cell, a period, the guarded
direction/cell/period triples, with the final period replaced by the
terminating NUL (`dropLast`). -/
def newGameDesc (gs : GameState) : List Char :=
  ((List.range (gs.w * gs.h).toNat).map (fun i : ℕ => digitChar (gs.grid (i : ℤ)).toNat)
      ++ ['.']
      ++ ((List.range (2 * (gs.w * gs.h)).toNat).map (connChars gs)).flatten
    ).dropLast

/-- The grid-digit prefix of the description. -/
def gridChars (gs : GameState) : List Char :=
  (List.range (gs.w * gs.h).toNat).map (fun i : ℕ => digitChar (gs.grid (i : ℤ)).toNat)

/-- The `(direction, cell)` pairs whose triples `new_game_desc` emits, in
emission order. -/
def emitList (gs : GameState) : List (ℤ × ℤ) :=
  (List.range (2 * (gs.w * gs.h)).toNat).filterMap (fun i : ℕ =>
    let mv := gs.conn_pairs (i : ℤ) - 48
    let cell := cdiv (i : ℤ) 2
    if mv < 8 ∧ cell < attemptMove cell (knightMoves mv) gs.w gs.h then
      some (mv, cell)
    else none)

/-- The characters the triples of `T` occupy in the description after the
final-period drop: each triple contributes its leading period, its
direction digit and its cell number. -/
def triplesChars (T : List (ℤ × ℤ)) : List Char :=
  (T.map (fun t => '.' :: digitChar t.1.toNat :: natChars t.2.toNat)).flatten

/-- One iteration of the hint-reading loop of `new_game`, applied to an
already-decoded `(direction, cell)` pair: exactly the state transformation
of the body of `parseConns`. -/
def applyTriple (gs : GameState) (t : ℤ × ℤ) : GameState :=
  let index := 2 * t.2 + (if gs.conn_pairs (2 * t.2) ≠ 56 then 1 else 0)
  let gs1 :=
    { gs with
      conn_pairs := upd gs.conn_pairs index (t.1 + 48)
      start_pairs := upd gs.start_pairs index true }
  let pos2 := t.2 + (knightMoves t.1).2 * gs.w + (knightMoves t.1).1
  let index2 : ℤ := 2 * pos2 + (if gs1.conn_pairs (2 * pos2) ≠ (56 : ℤ) then 1 else 0)
  let gs2 :=
    { gs1 with
      conn_pairs := upd gs1.conn_pairs index2 (cmod (t.1 + 4) 8 + 48)
      start_pairs := upd gs1.start_pairs index2 true }
  { gs2 with opposite_ends := connectEnds gs2.opposite_ends t.2 pos2 }

/-- The direction values the hint loop stores at cell `c` when processing
the single triple `t`: the direction itself at the triple's cell and the
opposite direction at the destination. -/
def insVal (w : ℤ) (t : ℤ × ℤ) (c : ℤ) : List ℤ :=
  (if t.2 = c then [t.1] else []) ++
  (if cellStep w t.2 t.1 = c then [oppDir t.1] else [])

/-- The direction values the hint loop stores at cell `c` over a whole
triple list, in storage order. -/
def insList (w : ℤ) (T : List (ℤ × ℤ)) (c : ℤ) : List ℤ :=
  T.flatMap (fun t => insVal w t c)

/-- The directions recorded in the two connection slots of cell `c`, in
slot order (56 marks an empty slot). -/
def slotsList (cp : ℤ → ℤ) (c : ℤ) : List ℤ :=
  (if cp (2 * c) = 56 then [] else [cp (2 * c) - 48]) ++
  (if cp (2 * c + 1) = 56 then [] else [cp (2 * c + 1) - 48])

/-- Slot 1 of cell `c` is only occupied once slot 0 is: the layout the
hint loop of `new_game` produces and `new_game_desc` serialises. -/
def leftFilled (cp : ℤ → ℤ) (c : ℤ) : Prop :=
  cp (2 * c) = 56 → cp (2 * c + 1) = 56

/-- The slot-store of the hint loop: write `v` into slot 0 of cell `p`
when it is free, else into slot 1
(`index = 2 * pos + (gs->conn_pairs[2 * pos] != '8')`). -/
def insSlot (cp : ℤ → ℤ) (p v : ℤ) : ℤ → ℤ :=
  upd cp (2 * p + (if cp (2 * p) ≠ 56 then 1 else 0)) v

/-- Cell `c` shows a revealed connection in direction `d`. -/
def hasConn (gs : GameState) (c d : ℤ) : Prop :=
  gs.conn_pairs (2 * c) = d + 48 ∨ gs.conn_pairs (2 * c + 1) = d + 48

/-- A serialisable generated state: positive dimensions, single-digit grid
values, and connection slots that are left-filled, pairwise distinct, and
hold in-bounds non-wrapping knight directions mirrored at the destination
cell. -/
def SerialWF (gs : GameState) : Prop :=
  0 < gs.w ∧ 0 < gs.h ∧
  ∀ i : ℕ, i < (gs.w * gs.h).toNat →
    (0 ≤ gs.grid i ∧ gs.grid i ≤ 3) ∧
    leftFilled gs.conn_pairs i ∧
    (gs.conn_pairs (2 * i) ≠ 56 → gs.conn_pairs (2 * i) ≠ gs.conn_pairs (2 * i + 1)) ∧
    ∀ s : ℕ, s < 2 →
      gs.conn_pairs (2 * i + s) = 56 ∨
      (48 ≤ gs.conn_pairs (2 * i + s) ∧ gs.conn_pairs (2 * i + s) < 56 ∧
        0 ≤ attemptMove i (knightMoves (gs.conn_pairs (2 * i + s) - 48)) gs.w gs.h ∧
        hasConn gs (cellStep gs.w i (gs.conn_pairs (2 * i + s) - 48))
          (oppDir (gs.conn_pairs (2 * i + s) - 48)))

instance hasConnDec (gs : GameState) (c d : ℤ) : Decidable (hasConn gs c d) := by
  unfold hasConn
  infer_instance

instance leftFilledDec (cp : ℤ → ℤ) (c : ℤ) : Decidable (leftFilled cp c) := by
  unfold leftFilled
  infer_instance

instance serialWFDec (gs : GameState) : Decidable (SerialWF gs) := by
  unfold SerialWF hasConn leftFilled
  infer_instance

/-- The state `new_game` rebuilds from the description `new_game_desc`
prints for `gs`. -/
def parsedOf (gs : GameState) : GameState :=
  newGame gs.w gs.h (newGameDesc gs)

/-- A 6×6 state whose only connection links cell 0 to cell 13 (direction
3 at cell 0, direction 7 back): a concrete serialisable state. -/
def kgSerState : GameState :=
  { initGameState 6 6 with
    conn_pairs := upd (upd (fun _ => 56) 0 51) 26 55 }

/-! The hamilton-cycle library (hamilton.c).  `hamilton_run` loops until
`hamilton_check_result` accepts the converged edge subset; the embedding
takes the edge list with its `active` flags (the converged subset) as
input and models the accepting path: the degree/incidence scan, the
cycle trace, and the optional final reversal. -/

/-- Array update on ℕ-indexed arrays. -/
def updN {α : Type} (f : ℕ → α) (i : ℕ) (v : α) : ℕ → α :=
  fun j => if j = i then v else f j

/-- One edge of the hamilton graph: its two endpoint vertices (`ends[0]`,
`ends[1]`) and whether it is in the current subset. -/
structure HEdge where
  a : ℕ
  b : ℕ
  active : Bool
deriving DecidableEq

/-- The first loop of `hamilton_check_result` (hamilton.c lines 497-507):
count the active-edge incidences of every vertex into `vdegree` and record
the edges meeting each vertex in `vedges` (slot 0 first), failing as soon
as a vertex exceeds degree 2.  `idx` numbers the edges (the C code stores
pointers into the edge array; indices model them). -/
def buildVedges : ℕ → List HEdge → (ℕ → ℕ) → (ℕ → ℕ × ℕ) →
    Option ((ℕ → ℕ) × (ℕ → ℕ × ℕ))
  | _, [], vd, ve => some (vd, ve)
  | idx, e :: es, vd, ve =>
    if e.active then
      if 2 ≤ vd e.a then none
      else
        let vd1 := updN vd e.a (vd e.a + 1)
        let ve1 := updN ve e.a (if vd e.a = 0 then (idx, (ve e.a).2) else ((ve e.a).1, idx))
        if 2 ≤ vd1 e.b then none
        else
          let vd2 := updN vd1 e.b (vd1 e.b + 1)
          let ve2 := updN ve1 e.b
            (if vd1 e.b = 0 then (idx, (ve1 e.b).2) else ((ve1 e.b).1, idx))
          buildVedges (idx + 1) es vd2 ve2
    else buildVedges (idx + 1) es vd ve

/-- The cycle-tracing loop of `hamilton_check_result` (lines 521-531):
step `vertex = e->ends[0] + e->ends[1] - vertex` and pick the other edge
of the new vertex, recording the visited vertices (the virtual start is
omitted in path mode) and failing when the walk returns to `start` too
early.  The fuel is the vertex count `n`. -/
def traceLoop (start : ℕ) (isPath : Bool) (es : List HEdge) (ve : ℕ → ℕ × ℕ) :
    ℕ → Bool → ℕ → ℕ → List ℕ → Option (ℕ × List ℕ)
  | 0, _, vertex, _, out => some (vertex, out)
  | k + 1, first, vertex, eidx, out =>
    if first = false ∧ vertex = start then none
    else
      let out2 := if isPath ∧ first = true then out else out ++ [vertex]
      let e := es.getD eidx ⟨0, 0, false⟩
      let vertex2 := e.a + e.b - vertex
      let eidx2 := if (ve vertex2).1 = eidx then (ve vertex2).2 else (ve vertex2).1
      traceLoop start isPath es ve k false vertex2 eidx2 out2

/-- `hamilton_check_result` (hamilton.c lines 490-544): degree scan,
all-degrees-2 check, then the cycle trace from `start_vertex` along
`vedges[start][0]`, with the final return-to-start check.  Returns the
output vertex list on acceptance. -/
def hamiltonCheckResult (n start : ℕ) (isPath : Bool) (es : List HEdge) :
    Option (List ℕ) :=
  match buildVedges 0 es (fun _ => 0) (fun _ => (0, 0)) with
  | none => none
  | some (vd, ve) =>
    if (List.range n).all (fun i => vd i = 2) then
      match traceLoop start isPath es ve n true start (ve start).1 [] with
      | none => none
      | some (vfin, out) => if vfin = start then some out else none
    else none

/-- The probability-1/2 reversal at the end of `hamilton_run` (lines
601-619): in path mode positions 0..nvertices-2 (the whole output) are
reversed, otherwise everything but the first entry. -/
def hamiltonReverse (isPath : Bool) (out : List ℕ) : List ℕ :=
  if isPath then out.reverse
  else
    match out with
    | [] => []
    | v :: rest => v :: rest.reverse

/-- The accepting exit of `hamilton_run`: a converged subset that passes
`hamilton_check_result`, followed by the coin-flip reversal. -/
def hamiltonRunOutput (n start : ℕ) (isPath : Bool) (es : List HEdge) (rev : Bool) :
    Option (List ℕ) :=
  match hamiltonCheckResult n start isPath es with
  | none => none
  | some out => some (if rev then hamiltonReverse isPath out else out)

/-- Vertices `u` and `v` are joined by an edge of the input edge set. -/
def joined (es : List HEdge) (u v : ℕ) : Prop :=
  ∃ e ∈ es, (e.a = u ∧ e.b = v) ∨ (e.a = v ∧ e.b = u)

instance joinedDec (es : List HEdge) (u v : ℕ) : Decidable (joined es u v) := by
  unfold joined
  infer_instance

/-- The edge of index `e` (the C pointer `&edges[e]`). -/
def hamEdge (es : List HEdge) (e : ℕ) : HEdge := es.getD e ⟨0, 0, false⟩

/-- The walk's vertex step `ends[0] + ends[1] - vertex`. -/
def hamOther (es : List HEdge) (e v : ℕ) : ℕ := (hamEdge es e).a + (hamEdge es e).b - v

/-- The walk's edge step: the slot of `vedges[v]` other than `e` (slot 0
when it differs from `e`). -/
def hamTau (ve : ℕ → ℕ × ℕ) (v e : ℕ) : ℕ :=
  if (ve v).1 = e then (ve v).2 else (ve v).1

/-- One (vertex, edge) state update of the tracing loop. -/
def hamStep (es : List HEdge) (ve : ℕ → ℕ × ℕ) (st : ℕ × ℕ) : ℕ × ℕ :=
  let v2 := hamOther es st.2 st.1
  (v2, hamTau ve v2 st.2)

/-- The reverse state update: undo one `hamStep`. -/
def hamBack (es : List HEdge) (ve : ℕ → ℕ × ℕ) (st : ℕ × ℕ) : ℕ × ℕ :=
  let e1 := hamTau ve st.1 st.2
  (hamOther es e1 st.1, e1)

/-- Switch a state to the other slot of its vertex: conjugating the walk
by this map reverses its direction. -/
def hamFlip (ve : ℕ → ℕ × ℕ) (st : ℕ × ℕ) : ℕ × ℕ :=
  (st.1, hamTau ve st.1 st.2)

/-- A well-formed walk state: an in-range vertex holding one of its two
recorded edge slots. -/
def hamStOK (n : ℕ) (ve : ℕ → ℕ × ℕ) (st : ℕ × ℕ) : Prop :=
  st.1 < n ∧ (st.2 = (ve st.1).1 ∨ st.2 = (ve st.1).2)

/-- The incidence list of vertex `v` over the edge list: one entry (the
edge's index) for every active edge endpoint equal to `v`, in scan
order. -/
def incList (v : ℕ) : ℕ → List HEdge → List ℕ
  | _, [] => []
  | idx, e :: es =>
    ((if e.active = true ∧ v = e.a then [idx] else []) ++
      (if e.active = true ∧ v = e.b then [idx] else [])) ++ incList v (idx + 1) es

/-- The first `k` (at most 2) recorded slots of a vertex, as a list. -/
def pairList (k : ℕ) (p : ℕ × ℕ) : List ℕ :=
  if k = 0 then [] else if k = 1 then [p.1] else [p.1, p.2]

/-- A successful degree scan: every in-range vertex's slot pair lists
exactly its active incidences, in scan order. -/
def hamGood (n : ℕ) (es : List HEdge) (ve : ℕ → ℕ × ℕ) : Prop :=
  ∀ v, v < n → [(ve v).1, (ve v).2] = incList v 0 es

/-- A concrete accepted run: the triangle graph on vertices 0, 1, 2 with
all three edges active. -/
def kgTriangle : List HEdge := [⟨0, 1, true⟩, ⟨1, 2, true⟩, ⟨2, 0, true⟩]

/-! ## Theorems -/

/-! Basic facts about directions, steps and chains, used to prove the
`follow_path` theorem. -/

theorem oppDir_range (d : ℤ) (h0 : 0 ≤ d) (h8 : d < 8) : 0 ≤ oppDir d ∧ oppDir d < 8 := by
  interval_cases d <;> decide

theorem oppDir_oppDir (d : ℤ) (h0 : 0 ≤ d) (h8 : d < 8) : oppDir (oppDir d) = d := by
  interval_cases d <;> decide

theorem knightMoves_opp (d : ℤ) (h0 : 0 ≤ d) (h8 : d < 8) :
    knightMoves (oppDir d) = (-(knightMoves d).1, -(knightMoves d).2) := by
  interval_cases d <;> decide

theorem cellStep_opp (w c d : ℤ) (h0 : 0 ≤ d) (h8 : d < 8) :
    cellStep w (cellStep w c d) (oppDir d) = c := by
  simp [cellStep, knightMoves_opp d h0 h8]
  ring

theorem code_ne_56 (d : ℤ) (h0 : 0 ≤ d) (h8 : d < 8) : d + 48 ≠ 56 := by omega

theorem slotsAre_comm (gs : GameState) (c a b : ℤ) (h : slotsAre gs c a b) :
    slotsAre gs c b a := by
  rcases h with ⟨h1, h2⟩ | ⟨h1, h2⟩
  · exact Or.inr ⟨h1, h2⟩
  · exact Or.inl ⟨h1, h2⟩

@[simp] theorem chainEnd_nil (w c : ℤ) : chainEnd w c [] = c := rfl

@[simp] theorem chainEnd_cons (w c d : ℤ) (ds : List ℤ) :
    chainEnd w c (d :: ds) = chainEnd w (cellStep w c d) ds := rfl

theorem chainEnd_append (w c : ℤ) (l1 l2 : List ℤ) :
    chainEnd w c (l1 ++ l2) = chainEnd w (chainEnd w c l1) l2 := by
  simp [chainEnd, List.foldl_append]

@[simp] theorem arrAfter_nil (a : ℤ) : arrAfter a [] = a := rfl

@[simp] theorem arrAfter_cons (a d : ℤ) (ds : List ℤ) :
    arrAfter a (d :: ds) = arrAfter (oppDir d + 48) ds := rfl

theorem arrAfter_append (a : ℤ) (l1 l2 : List ℤ) :
    arrAfter a (l1 ++ l2) = arrAfter (arrAfter a l1) l2 := by
  induction l1 generalizing a with
  | nil => rfl
  | cons d l ih => simp [ih]

theorem arrAfter_concat (a e : ℤ) (l : List ℤ) :
    arrAfter a (l ++ [e]) = oppDir e + 48 := by
  rw [arrAfter_append]
  rfl

/-- Any chain's direction entries are real directions. -/
theorem chainLink_dirs (gs : GameState) :
    ∀ (ds : List ℤ) (c a : ℤ), chainLink gs c a ds → ∀ d ∈ ds, 0 ≤ d ∧ d < 8
  | [], _, _, _, d, hd => absurd hd (by simp)
  | e :: ds, c, a, h, d, hd => by
    rcases h with ⟨h0, h8, _, _, hrest⟩
    rcases List.mem_cons.mp hd with rfl | hd
    · exact ⟨h0, h8⟩
    · exact chainLink_dirs gs ds _ _ hrest d hd

theorem arrAfter_ne_56 (gs : GameState) (ds : List ℤ) (c a : ℤ)
    (h : chainLink gs c a ds) (hne : ds ≠ []) : arrAfter a ds ≠ 56 := by
  rcases ds.eq_nil_or_concat' with rfl | ⟨l, e, rfl⟩
  · exact absurd rfl hne
  · rw [arrAfter_concat]
    have he := chainLink_dirs gs _ _ _ h e (by simp)
    have := oppDir_range e he.1 he.2
    omega

@[simp] theorem chainCells_nil (w c : ℤ) : chainCells w c [] = [c] := rfl

@[simp] theorem chainCells_cons (w c d : ℤ) (ds : List ℤ) :
    chainCells w c (d :: ds) = c :: chainCells w (cellStep w c d) ds := rfl

theorem chainCells_ne_nil (w c : ℤ) (ds : List ℤ) : chainCells w c ds ≠ [] := by
  cases ds <;> simp

theorem chainCells_cons_form (w c : ℤ) (ds : List ℤ) :
    ∃ t, chainCells w c ds = c :: t := by
  cases ds <;> exact ⟨_, rfl⟩

theorem chainCells_length (w c : ℤ) (ds : List ℤ) :
    (chainCells w c ds).length = ds.length + 1 := by
  induction ds generalizing c with
  | nil => rfl
  | cons d ds ih => simp [ih]

theorem chainCells_append (w c : ℤ) (l1 l2 : List ℤ) :
    chainCells w c (l1 ++ l2) =
      (chainCells w c l1).dropLast ++ chainCells w (chainEnd w c l1) l2 := by
  induction l1 generalizing c with
  | nil => simp
  | cons d l ih =>
    simp only [List.cons_append, chainCells_cons, chainEnd_cons, ih]
    rw [List.dropLast_cons_of_ne_nil (chainCells_ne_nil w (cellStep w c d) l)]
    simp

theorem chainCells_concat_form (w c : ℤ) (ds : List ℤ) :
    chainCells w c ds = (chainCells w c ds).dropLast ++ [chainEnd w c ds] := by
  induction ds generalizing c with
  | nil => rfl
  | cons d ds ih =>
    simp only [chainCells_cons, chainEnd_cons]
    rw [List.dropLast_cons_of_ne_nil (chainCells_ne_nil w (cellStep w c d) ds)]
    rw [List.cons_append, ← ih]

theorem mem_chainCells_split (w c x : ℤ) (ds : List ℤ)
    (h : x ∈ chainCells w c ds) :
    ∃ pre suf, ds = pre ++ suf ∧ x = chainEnd w c pre := by
  induction ds generalizing c with
  | nil =>
    simp only [chainCells_nil, List.mem_singleton] at h
    exact ⟨[], [], rfl, h⟩
  | cons d ds ih =>
    rcases List.mem_cons.mp h with rfl | hx
    · exact ⟨[], d :: ds, rfl, rfl⟩
    · obtain ⟨pre, suf, hds, hx⟩ := ih (cellStep w c d) hx
      exact ⟨d :: pre, suf, by rw [hds, List.cons_append], by simpa using hx⟩

theorem chainLink_append_iff (gs : GameState) (l1 l2 : List ℤ) (c a : ℤ) :
    chainLink gs c a (l1 ++ l2) ↔
      chainLink gs c a l1 ∧
      chainLink gs (chainEnd gs.w c l1) (arrAfter a l1) l2 := by
  induction l1 generalizing c a with
  | nil => simp [chainLink]
  | cons d l ih =>
    simp only [List.cons_append, chainLink, chainEnd_cons, arrAfter_cons, List.append_eq]
    constructor
    · rintro ⟨h0, h8, hne, hsl, hrest⟩
      rw [ih] at hrest
      exact ⟨⟨h0, h8, hne, hsl, hrest.1⟩, hrest.2⟩
    · rintro ⟨⟨h0, h8, hne, hsl, hl⟩, h2⟩
      exact ⟨h0, h8, hne, hsl, (ih _ _).mpr ⟨hl, h2⟩⟩

@[simp] theorem revOpp_nil : revOpp [] = [] := rfl

theorem revOpp_cons (d : ℤ) (ds : List ℤ) :
    revOpp (d :: ds) = revOpp ds ++ [oppDir d] := by
  simp [revOpp]

theorem revOpp_append (l1 l2 : List ℤ) :
    revOpp (l1 ++ l2) = revOpp l2 ++ revOpp l1 := by
  simp [revOpp]

theorem revOpp_concat (l : List ℤ) (e : ℤ) :
    revOpp (l ++ [e]) = oppDir e :: revOpp l := by
  simp [revOpp]

theorem chainEnd_revOpp (gs : GameState) :
    ∀ (ds : List ℤ) (c a : ℤ), chainLink gs c a ds →
      chainEnd gs.w (chainEnd gs.w c ds) (revOpp ds) = c := by
  intro ds
  induction ds with
  | nil => intro c a _; rfl
  | cons d rest ih =>
    intro c a h
    obtain ⟨h0, h8, _, _, hrest⟩ := h
    rw [revOpp_cons, chainEnd_cons, chainEnd_append, ih _ _ hrest]
    show cellStep gs.w (cellStep gs.w c d) (oppDir d) = c
    exact cellStep_opp gs.w c d h0 h8

theorem chainLink_rev (gs : GameState) :
    ∀ (ds : List ℤ) (c a b : ℤ),
      chainLink gs c a ds →
      slotsAre gs (chainEnd gs.w c ds) (arrAfter a ds) b →
      (ds ≠ [] → b ≠ arrAfter a ds) →
      chainLink gs (chainEnd gs.w c ds) b (revOpp ds) := by
  intro ds
  induction ds with
  | nil => intro c a b _ _ _; trivial
  | cons d rest ih =>
    intro c a b h hb hbne
    obtain ⟨h0, h8, hne, hsl, hrest⟩ := h
    have hbR : slotsAre gs (chainEnd gs.w (cellStep gs.w c d) rest)
        (arrAfter (oppDir d + 48) rest) b := hb
    have hbneR : rest ≠ [] → b ≠ arrAfter (oppDir d + 48) rest := fun hr =>
      hbne (by simp) ∘ fun e => e
    rw [chainEnd_cons, revOpp_cons]
    refine (chainLink_append_iff gs (revOpp rest) [oppDir d] _ b).mpr ⟨?_, ?_⟩
    · exact ih _ _ b hrest hbR (fun hr => hbne (by simp))
    · rw [chainEnd_revOpp gs rest _ _ hrest]
      have hod := oppDir_range d h0 h8
      rcases rest with _ | ⟨d', rest'⟩
      · -- the reversed single step back to the head cell
        refine ⟨hod.1, hod.2, ?_, ?_, trivial⟩
        · simpa using hbne (by simp)
        · exact slotsAre_comm gs _ _ _ hb
      · obtain ⟨h0', h8', hne', hsl', _⟩ := hrest
        rw [revOpp_cons, arrAfter_concat, oppDir_oppDir d' h0' h8']
        refine ⟨hod.1, hod.2, ?_, ?_, trivial⟩
        · exact fun e => hne' e.symm
        · exact slotsAre_comm gs _ _ _ hsl'

theorem chainCells_revOpp (gs : GameState) :
    ∀ (ds : List ℤ) (c a : ℤ), chainLink gs c a ds →
      chainCells gs.w (chainEnd gs.w c ds) (revOpp ds) =
        (chainCells gs.w c ds).reverse := by
  intro ds
  induction ds with
  | nil => intro c a _; rfl
  | cons d rest ih =>
    intro c a h
    obtain ⟨h0, h8, _, _, hrest⟩ := h
    obtain ⟨t, ht⟩ := chainCells_cons_form gs.w (cellStep gs.w c d) rest
    rw [chainEnd_cons, revOpp_cons, chainCells_append, ih _ _ hrest,
      chainEnd_revOpp gs rest _ _ hrest, chainCells_cons, ht]
    have hstep : cellStep gs.w (cellStep gs.w c d) (oppDir d) = c :=
      cellStep_opp gs.w c d h0 h8
    simp [hstep, ht]

/-- The core of the `follow_path` argument: stepping from `c` along a
chain's direction `d`, the loop runs down the chain and stops exactly at
its final cell (the far cell with a free slot), provided none of the
intermediate cells is the walk's starting cell and the fuel covers the
chain's length. -/
theorem walk_to_end (gs : GameState) (start : ℤ) :
    ∀ (ds : List ℤ) (c d : ℤ) (fuel : ℕ),
      0 ≤ d → d < 8 →
      chainLink gs (cellStep gs.w c d) (oppDir d + 48) ds →
      slotsAre gs (chainEnd gs.w (cellStep gs.w c d) ds)
        (arrAfter (oppDir d + 48) ds) 56 →
      (∀ x ∈ (chainCells gs.w (cellStep gs.w c d) ds).dropLast, x ≠ start) →
      ds.length + 1 ≤ fuel →
      followPathLoop gs start fuel c d =
        some (chainEnd gs.w (cellStep gs.w c d) ds) := by
  intro ds
  induction ds with
  | nil =>
    intro c d fuel h0 h8 _ hend _ hfuel
    match fuel, hfuel with
    | f + 1, _ =>
      simp only [followPathLoop]
      rw [show c + (knightMoves d).2 * gs.w + (knightMoves d).1 = cellStep gs.w c d from rfl]
      rcases hend with ⟨e1, e2⟩ | ⟨e1, e2⟩ <;> simp only [chainEnd_nil] at e1 e2
      · rw [if_pos (Or.inr e2)]
        rfl
      · rw [if_pos (Or.inl e1)]
        rfl
  | cons d' rest ih =>
    intro c d fuel h0 h8 hch hend hdrop hfuel
    obtain ⟨h0', h8', hne', hsl', hrest⟩ := hch
    match fuel, hfuel with
    | f + 1, hf1 =>
      have hf : rest.length + 1 ≤ f := by
        simp only [List.length_cons] at hf1
        omega
      have hcstart : cellStep gs.w c d ≠ start := by
        apply hdrop
        rw [chainCells_cons,
          List.dropLast_cons_of_ne_nil (chainCells_ne_nil gs.w _ rest)]
        exact List.mem_cons_self _ _
      have hdrop' : ∀ x ∈ (chainCells gs.w
          (cellStep gs.w (cellStep gs.w c d) d') rest).dropLast, x ≠ start := by
        intro x hx
        apply hdrop
        rw [chainCells_cons,
          List.dropLast_cons_of_ne_nil (chainCells_ne_nil gs.w _ rest)]
        exact List.mem_cons_of_mem _ hx
      have hodr := oppDir_range d h0 h8
      simp only [followPathLoop]
      rw [show c + (knightMoves d).2 * gs.w + (knightMoves d).1 = cellStep gs.w c d from rfl]
      rcases hsl' with ⟨e1, e2⟩ | ⟨e1, e2⟩
      · rw [if_neg (by rw [e1, e2]; push_neg; constructor <;> omega)]
        rw [if_pos hcstart]
        have hi2 : (if gs.conn_pairs (2 * cellStep gs.w c d) - 48 = cmod (d + 4) 8 then
              gs.conn_pairs (2 * cellStep gs.w c d + 1)
            else gs.conn_pairs (2 * cellStep gs.w c d)) - 48 = d' := by
          rw [e1, e2]
          rw [if_pos (by show oppDir d + 48 - 48 = oppDir d; omega)]
          omega
        rw [hi2]
        exact ih (cellStep gs.w c d) d' f h0' h8' hrest hend hdrop' hf
      · rw [if_neg (by rw [e1, e2]; push_neg; constructor <;> omega)]
        rw [if_pos hcstart]
        have hi2 : (if gs.conn_pairs (2 * cellStep gs.w c d) - 48 = cmod (d + 4) 8 then
              gs.conn_pairs (2 * cellStep gs.w c d + 1)
            else gs.conn_pairs (2 * cellStep gs.w c d)) - 48 = d' := by
          rw [e1, e2]
          rw [if_neg (by show ¬ (d' + 48 - 48 = oppDir d); omega)]
          omega
        rw [hi2]
        exact ih (cellStep gs.w c d) d' f h0' h8' hrest hend hdrop' hf

theorem chainEnd_mem (w c : ℤ) (ds : List ℤ) :
    chainEnd w c ds ∈ chainCells w c ds := by
  rw [chainCells_concat_form w c ds]
  exact List.mem_append_right _ (by simp)

theorem chainCells_append_tail (w c : ℤ) (l1 l2 : List ℤ) :
    chainCells w c (l1 ++ l2) =
      chainCells w c l1 ++ (chainCells w (chainEnd w c l1) l2).tail := by
  rw [chainCells_append]
  obtain ⟨t, ht⟩ := chainCells_cons_form w (chainEnd w c l1) l2
  rw [ht, List.tail_cons]
  rw [show (chainCells w c l1).dropLast ++ chainEnd w c l1 :: t =
    ((chainCells w c l1).dropLast ++ [chainEnd w c l1]) ++ t from by simp]
  rw [← chainCells_concat_form]

theorem chainCells_prefix_nodup (w c : ℤ) (l1 l2 : List ℤ)
    (hnd : (chainCells w c (l1 ++ l2)).Nodup) : (chainCells w c l1).Nodup := by
  rw [chainCells_append_tail] at hnd
  exact hnd.of_append_left

theorem head_ne_chainEnd (w c : ℤ) (ds : List ℤ)
    (hnd : (chainCells w c ds).Nodup) (hne : ds ≠ []) : c ≠ chainEnd w c ds := by
  rcases ds with _ | ⟨e, ds2⟩
  · exact absurd rfl hne
  · rw [chainCells_cons] at hnd
    have hcm : c ∉ chainCells w (cellStep w c e) ds2 := (List.nodup_cons.mp hnd).1
    intro he
    rw [chainEnd_cons] at he
    apply hcm
    nth_rewrite 2 [he]
    exact chainEnd_mem w (cellStep w c e) ds2

theorem split_ne_chainEnd (w c : ℤ) (pre suf : List ℤ)
    (hnd : (chainCells w c (pre ++ suf)).Nodup) (hsuf : suf ≠ []) :
    chainEnd w c pre ≠ chainEnd w c (pre ++ suf) := by
  rcases suf with _ | ⟨e, suf2⟩
  · exact absurd rfl hsuf
  · rw [chainCells_append_tail] at hnd
    have hdis := List.disjoint_of_nodup_append hnd
    intro he
    apply hdis (chainEnd_mem w c pre)
    show chainEnd w c pre ∈ chainCells w (cellStep w (chainEnd w c pre) e) suf2
    nth_rewrite 2 [he]
    rw [chainEnd_append, chainEnd_cons]
    exact chainEnd_mem w _ suf2

/-- Running the `follow_path` loop from a chain cell along the next
direction of the chain reaches the chain's final cell. -/
theorem followPathLoop_split (gs : GameState) (c0 start d : ℤ) (ds pre suf : List ℤ)
    (hds : ds = pre ++ d :: suf)
    (hch : chainSlots gs c0 56 ds)
    (hnd : (chainCells gs.w c0 ds).Nodup)
    (hlen : ds.length + 1 ≤ (gs.w * gs.h).toNat + 2)
    (hstart : start = chainEnd gs.w c0 pre) :
    followPathLoop gs start ((gs.w * gs.h).toNat + 2) start d =
      some (chainEnd gs.w c0 ds) := by
  obtain ⟨hlink, hbase⟩ := hch
  rw [hds] at hlink hbase hnd
  rw [chainLink_append_iff] at hlink
  obtain ⟨hpre, hsufl⟩ := hlink
  rw [← hstart] at hsufl
  obtain ⟨hd0, hd8, hdne, hdsl, hrest⟩ := hsufl
  have hend' : chainEnd gs.w c0 (pre ++ d :: suf) =
      chainEnd gs.w (cellStep gs.w start d) suf := by
    rw [chainEnd_append, ← hstart, chainEnd_cons]
  have hbase' : slotsAre gs (chainEnd gs.w (cellStep gs.w start d) suf)
      (arrAfter (oppDir d + 48) suf) 56 := by
    rw [← hend']
    have : arrAfter 56 (pre ++ d :: suf) = arrAfter (oppDir d + 48) suf := by
      rw [arrAfter_append, arrAfter_cons]
    rw [← this]
    exact hbase
  have hdrop : ∀ x ∈ (chainCells gs.w (cellStep gs.w start d) suf).dropLast,
      x ≠ start := by
    have hformer : chainCells gs.w c0 (pre ++ d :: suf) =
        (chainCells gs.w c0 pre).dropLast ++
          (start :: chainCells gs.w (cellStep gs.w start d) suf) := by
      rw [chainCells_append, ← hstart]
      rfl
    rw [hformer] at hnd
    have hr := hnd.of_append_right
    have hnotin : start ∉ chainCells gs.w (cellStep gs.w start d) suf :=
      (List.nodup_cons.mp hr).1
    intro x hx he
    subst he
    exact hnotin (List.dropLast_subset _ hx)
  have hfuel : suf.length + 1 ≤ (gs.w * gs.h).toNat + 2 := by
    rw [hds] at hlen
    simp only [List.length_append, List.length_cons] at hlen
    omega
  rw [hds, hend']
  exact walk_to_end gs start suf start d _ hd0 hd8 hrest hbase' hdrop hfuel

/-- Reversing an open chain yields an open chain from its far end. -/
theorem chainSlots_reverse (gs : GameState) (c0 : ℤ) (ds : List ℤ)
    (h : chainSlots gs c0 56 ds) :
    chainSlots gs (chainEnd gs.w c0 ds) 56 (revOpp ds) := by
  obtain ⟨hlink, hbase⟩ := h
  rcases ds with _ | ⟨dh, dt⟩
  · exact ⟨trivial, hbase⟩
  · constructor
    · refine chainLink_rev gs (dh :: dt) c0 56 56 hlink hbase ?_
      intro hne
      exact (arrAfter_ne_56 gs (dh :: dt) c0 56 hlink hne).symm
    · rw [chainEnd_revOpp gs (dh :: dt) c0 56 hlink]
      obtain ⟨h0, h8, _, hsl, _⟩ := hlink
      rw [revOpp_cons, arrAfter_concat, oppDir_oppDir dh h0 h8]
      exact slotsAre_comm gs c0 56 (dh + 48) hsl

theorem chainSlots_head_open (gs : GameState) (c0 : ℤ) (ds : List ℤ)
    (h : chainSlots gs c0 56 ds) : hasOpenSlot gs c0 := by
  obtain ⟨hlink, hbase⟩ := h
  rcases ds with _ | ⟨dh, dt⟩
  · rcases hbase with ⟨e1, _⟩ | ⟨e1, _⟩ <;> exact Or.inl e1
  · obtain ⟨_, _, _, hsl, _⟩ := hlink
    rcases hsl with ⟨e1, _⟩ | ⟨_, e2⟩
    · exact Or.inl e1
    · exact Or.inr e2

theorem chainSlots_end_open (gs : GameState) (c0 : ℤ) (ds : List ℤ)
    (h : chainSlots gs c0 56 ds) : hasOpenSlot gs (chainEnd gs.w c0 ds) := by
  rcases h.2 with ⟨_, e2⟩ | ⟨e1, _⟩
  · exact Or.inr e2
  · exact Or.inl e1

/-- C9: in a game state whose connection chain through `start` forms an
open simple path (distinct in-range cells `chainCells`, mirrored
connections `chainSlots`, free slots at both ends), `follow_path`
terminates with `some` cell — the failing assertion and the fuel bound
are never reached — and that cell is an end of the chain (a cell with a
free connection slot); when `start` is itself an end of a chain of at
least one connection, the result is the opposite, far end. -/
theorem follow_path_reaches_open_end (gs : GameState) (c0 : ℤ) (ds : List ℤ) (start : ℤ)
    (hch : chainSlots gs c0 56 ds)
    (hnd : (chainCells gs.w c0 ds).Nodup)
    (hrange : ∀ x ∈ chainCells gs.w c0 ds, 0 ≤ x ∧ x < gs.w * gs.h)
    (hmem : start ∈ chainCells gs.w c0 ds) :
    ∃ r, followPath gs start = some r ∧
      (r = c0 ∨ r = chainEnd gs.w c0 ds) ∧ hasOpenSlot gs r ∧
      (start = c0 → ds ≠ [] → r = chainEnd gs.w c0 ds) ∧
      (start = chainEnd gs.w c0 ds → ds ≠ [] → r = c0) := by
  obtain ⟨hlink, hbase⟩ := hch
  have hlen : ds.length + 1 ≤ (gs.w * gs.h).toNat + 2 := by
    have hsub : (chainCells gs.w c0 ds).toFinset ⊆ Finset.Ico 0 (gs.w * gs.h) := by
      intro x hx
      exact Finset.mem_Ico.mpr (hrange x (List.mem_toFinset.mp hx))
    have hcard := Finset.card_le_card hsub
    rw [List.toFinset_card_of_nodup hnd, Int.card_Ico] at hcard
    have hclen := chainCells_length gs.w c0 ds
    omega
  obtain ⟨pre, suf, hds, hstart⟩ := mem_chainCells_split gs.w c0 start ds hmem
  rcases suf with _ | ⟨d, suf'⟩
  · -- `start` is the far (or only) cell of the chain
    rw [List.append_nil] at hds
    subst hds
    rcases ds.eq_nil_or_concat' with rfl | ⟨p', dprev, rfl⟩
    · -- the chain is the single unconnected cell `start = c0`
      subst hstart
      have hb : slotsAre gs start 56 56 := hbase
      have he1 : gs.conn_pairs (2 * start) = 56 := by
        rcases hb with ⟨e1, _⟩ | ⟨e1, _⟩ <;> exact e1
      have he2 : gs.conn_pairs (2 * start + 1) = 56 := by
        rcases hb with ⟨_, e2⟩ | ⟨_, e2⟩ <;> exact e2
      refine ⟨start, ?_, Or.inl rfl, Or.inl he1,
        fun _ h => absurd rfl h, fun _ h => absurd rfl h⟩
      simp only [followPath]
      rw [he1, he2, if_pos rfl]
      rw [show (56 : ℤ) - 48 = 8 from by norm_num]
      simp only [followPathLoop]
      rw [show knightMoves 8 = ((0 : ℤ), (0 : ℤ)) from rfl]
      rw [show start + (0 : ℤ) * gs.w + 0 = start from by ring]
      rw [if_pos (Or.inl he1)]
    · -- `start` is the far end of a chain with at least one connection
      have hdprev := chainLink_dirs gs _ _ _ hlink dprev (by simp)
      have hdo := oppDir_range dprev hdprev.1 hdprev.2
      have harr : arrAfter 56 (p' ++ [dprev]) = oppDir dprev + 48 := arrAfter_concat _ _ _
      have hbs : slotsAre gs start (oppDir dprev + 48) 56 := by
        rw [hstart]
        rw [← harr]
        exact hbase
      have hrevch := chainSlots_reverse gs c0 (p' ++ [dprev]) ⟨hlink, hbase⟩
      have hrevnd : (chainCells gs.w (chainEnd gs.w c0 (p' ++ [dprev]))
          (revOpp (p' ++ [dprev]))).Nodup := by
        rw [chainCells_revOpp gs _ _ _ hlink]
        exact List.nodup_reverse.mpr hnd
      have hrevlen : (revOpp (p' ++ [dprev])).length + 1 ≤ (gs.w * gs.h).toNat + 2 := by
        simp only [revOpp, List.length_map, List.length_reverse]
        exact hlen
      have hloop := followPathLoop_split gs (chainEnd gs.w c0 (p' ++ [dprev])) start
        (oppDir dprev) (revOpp (p' ++ [dprev])) [] (revOpp p')
        (by rw [revOpp_concat]; rfl) hrevch hrevnd hrevlen (by rw [hstart]; rfl)
      rw [chainEnd_revOpp gs _ _ _ hlink] at hloop
      have hne56 : oppDir dprev + 48 ≠ 56 := by omega
      refine ⟨c0, ?_, Or.inl rfl, chainSlots_head_open gs c0 _ ⟨hlink, hbase⟩,
        ?_, fun _ _ => rfl⟩
      · simp only [followPath]
        rcases hbs with ⟨f1, f2⟩ | ⟨f1, f2⟩
        · rw [f1, f2, if_neg hne56]
          rw [show oppDir dprev + 48 - 48 = oppDir dprev from by ring]
          exact hloop
        · rw [f1, f2, if_pos rfl]
          rw [show oppDir dprev + 48 - 48 = oppDir dprev from by ring]
          exact hloop
      · intro h1 h2
        have hh := head_ne_chainEnd gs.w c0 (p' ++ [dprev]) hnd (by simp)
        rw [h1] at hstart
        exact absurd hstart hh
  · -- `start` has a next chain direction `d`
    have hnesuf : ds ≠ [] := by rw [hds]; simp
    have hl2 := (chainLink_append_iff gs pre (d :: suf') c0 56).mp (by rw [← hds]; exact hlink)
    obtain ⟨hpre, hsufl⟩ := hl2
    rw [← hstart] at hsufl
    obtain ⟨hd0, hd8, hdne, hdsl, hrest⟩ := hsufl
    have hd48 : (d : ℤ) + 48 ≠ 56 := by omega
    have hupward : followPathLoop gs start ((gs.w * gs.h).toNat + 2) start d =
        some (chainEnd gs.w c0 ds) :=
      followPathLoop_split gs c0 start d ds pre suf' hds ⟨hlink, hbase⟩ hnd hlen hstart
    have hconc : (chainEnd gs.w c0 ds = c0 ∨ chainEnd gs.w c0 ds = chainEnd gs.w c0 ds) ∧
        hasOpenSlot gs (chainEnd gs.w c0 ds) ∧
        (start = c0 → ds ≠ [] → chainEnd gs.w c0 ds = chainEnd gs.w c0 ds) ∧
        (start = chainEnd gs.w c0 ds → ds ≠ [] → chainEnd gs.w c0 ds = c0) := by
      refine ⟨Or.inr rfl, chainSlots_end_open gs c0 ds ⟨hlink, hbase⟩,
        fun _ _ => rfl, ?_⟩
      intro h1 _
      have := split_ne_chainEnd gs.w c0 pre (d :: suf') (by rw [← hds]; exact hnd) (by simp)
      rw [← hstart, ← hds] at this
      exact absurd h1 this
    rcases hdsl with ⟨f1, f2⟩ | ⟨f1, f2⟩
    · by_cases harr : arrAfter 56 pre = 56
      · -- free slot first: walk away from the head along `d`
        refine ⟨chainEnd gs.w c0 ds, ?_, hconc.1, hconc.2.1, hconc.2.2.1, hconc.2.2.2⟩
        simp only [followPath]
        rw [f1, harr, f2, if_pos rfl]
        rw [show d + 48 - 48 = d from by ring]
        exact hupward
      · -- slot 0 holds the arrival connection: walk back down the chain
        have hpre_ne : pre ≠ [] := by
          intro h
          rw [h] at harr
          exact harr rfl
        obtain ⟨p', dprev, rfl⟩ := pre.eq_nil_or_concat'.resolve_left hpre_ne
        have hdprev := chainLink_dirs gs _ _ _ hlink dprev (by rw [hds]; simp)
        have hdo := oppDir_range dprev hdprev.1 hdprev.2
        have harrv : arrAfter 56 (p' ++ [dprev]) = oppDir dprev + 48 := arrAfter_concat _ _ _
        have hrevch := chainSlots_reverse gs c0 ds ⟨hlink, hbase⟩
        have hrevnd : (chainCells gs.w (chainEnd gs.w c0 ds) (revOpp ds)).Nodup := by
          rw [chainCells_revOpp gs _ _ _ hlink]
          exact List.nodup_reverse.mpr hnd
        have hrevlen : (revOpp ds).length + 1 ≤ (gs.w * gs.h).toNat + 2 := by
          simp only [revOpp, List.length_map, List.length_reverse]
          exact hlen
        have hdsR : revOpp ds = revOpp (d :: suf') ++ oppDir dprev :: revOpp p' := by
          rw [hds, revOpp_append, revOpp_concat]
        have hstartR : start = chainEnd gs.w (chainEnd gs.w c0 ds) (revOpp (d :: suf')) := by
          have hEnd : chainEnd gs.w c0 ds = chainEnd gs.w start (d :: suf') := by
            rw [hds, chainEnd_append, ← hstart]
          rw [hEnd, chainEnd_revOpp gs (d :: suf') start _ ⟨hd0, hd8, hdne, Or.inl ⟨f1, f2⟩, hrest⟩]
        have hloop := followPathLoop_split gs (chainEnd gs.w c0 ds) start
          (oppDir dprev) (revOpp ds) (revOpp (d :: suf')) (revOpp p')
          hdsR hrevch hrevnd hrevlen hstartR
        rw [show chainEnd gs.w (chainEnd gs.w c0 ds) (revOpp ds) = c0 from
          chainEnd_revOpp gs ds c0 56 hlink] at hloop
        have hne56 : oppDir dprev + 48 ≠ 56 := by omega
        refine ⟨c0, ?_, Or.inl rfl, chainSlots_head_open gs c0 ds ⟨hlink, hbase⟩, ?_,
          fun _ _ => rfl⟩
        · simp only [followPath]
          rw [harrv] at f1
          rw [f1, if_neg hne56]
          rw [show oppDir dprev + 48 - 48 = oppDir dprev from by ring]
          exact hloop
        · intro h1 _
          have hh := head_ne_chainEnd gs.w c0 (p' ++ [dprev])
            (chainCells_prefix_nodup gs.w c0 (p' ++ [dprev]) (d :: suf')
              (by rw [← hds]; exact hnd)) (by simp)
          rw [h1] at hstart
          exact absurd hstart hh
    · -- slot 0 holds the outgoing direction `d`: walk along `d`
      refine ⟨chainEnd gs.w c0 ds, ?_, hconc.1, hconc.2.1, hconc.2.2.1, hconc.2.2.2⟩
      simp only [followPath]
      rw [f1, if_neg hd48]
      rw [show d + 48 - 48 = d from by ring]
      exact hupward

/-- Witness for `follow_path_reaches_open_end`: the two-cell chain 6-14
of `kgChainState`, walked from cell 6, ends at cell 14. -/
theorem follow_path_reaches_open_end_witness :
    followPath kgChainState 6 = some 14 ∧ hasOpenSlot kgChainState 14 := by
  obtain ⟨r, hr, _, hopen, himp, _⟩ :=
    follow_path_reaches_open_end kgChainState 6 [2] 6 (by decide) (by decide)
      (by decide) (by decide)
  have h14 : chainEnd kgChainState.w 6 [2] = 14 := by decide
  have hr14 : r = 14 := by
    rw [← h14]
    exact himp rfl (by simp)
  subst hr14
  exact ⟨hr, hopen⟩

/-- C1: after the work queue of `unique_solution` empties, the code scans
only the cells *other than* the randomly drawn cell `start` for an
`opposite_ends` entry different from -1: with `start = 0` and
`opposite_ends[0] = 0 ≠ -1` (all other cells -1), the scan still arrives
back at `start` and the puzzle is declared uniquely solved, contradicting
the claim that success is reported only when *every* cell's entry is -1
(and the code's own comment "All cells are part of the tour"). -/
theorem unique_solution_scan_skips_drawn_cell :
    uniqueSolutionScan c1oe 36 0 = 0 ∧ c1oe 0 ≠ -1 := by decide

/-- C2: at a reachable step of the generation walk (visited path
2 → 13 → 9 → 22 → 14, current cell 14, shuffled order 0,1,...,7), the
selection loop of `new_game_desc` picks direction 0 (destination cell 3),
even though direction 1 leads to the in-bounds unvisited cell 10 whose
count of unvisited knight-neighbours (2) is strictly smaller than cell
3's (3): `num_neighbors` tests `grid[neighbor] == 9`, which never holds
during this walk, so every candidate counts 0 and the first valid
direction in shuffle order wins — not Warnsdorff's rule. -/
theorem new_game_desc_ignores_warnsdorff :
    chooseNext c2grid 14 6 6 [0, 1, 2, 3, 4, 5, 6, 7] = (0, 3, 0) ∧
    numNeighbors c2grid 3 6 6 = 0 ∧ numNeighbors c2grid 10 6 6 = 0 ∧
    attemptMove 14 (knightMoves 1) 6 6 = 10 ∧ c2grid 10 = 0 ∧
    specUnvisitedNeighbors c2grid 10 6 6 < specUnvisitedNeighbors c2grid 3 6 6 := by
  decide

/-- C3: applying the move "3014" to the reachable state `kgS2` (a third
connection at cell 14, which overwrites the slot holding the connection
toward cell 22) and then applying the exact retraction does not restore
the state: connection slot 28 (cell 14, slot 0) held '2' (50) before and
'8' (56) after, and `opposite_ends[6]` was 22 before and 14 after.  All
four moves are accepted by `execute_move`. -/
theorem execute_move_retraction_not_inverse :
    (executeMove kgS0 ['4', '3', '6']).isSome ∧
    (executeMove kgS1 ['4', '3', '1', '4']).isSome ∧
    (executeMove kgS2 ['3', '0', '1', '4']).isSome ∧
    (executeMove kgS3 ['3', '0', '1', '4']).isSome ∧
    kgS2.conn_pairs 28 = 50 ∧ kgS4.conn_pairs 28 = 56 ∧
    kgS2.opposite_ends 6 = 22 ∧ kgS4.opposite_ends 6 = 14 := by
  decide

/-- C4: the state `kgS4`, reached from `new_game` by four accepted
`execute_move` calls, violates the symmetry invariant of
`opposite_ends` (documented in the game_state declaration as
"if i >= 0, then opposite_ends[opposite_ends[i]] == i"):
`opposite_ends[22] = 6 ≥ 0` but `opposite_ends[6] = 14 ≠ 22`. -/
theorem opposite_ends_symmetry_broken :
    (executeMove kgS0 ['4', '3', '6']).isSome ∧
    (executeMove kgS1 ['4', '3', '1', '4']).isSome ∧
    (executeMove kgS2 ['3', '0', '1', '4']).isSome ∧
    (executeMove kgS3 ['3', '0', '1', '4']).isSome ∧
    0 ≤ kgS4.opposite_ends 22 ∧
    kgS4.opposite_ends (kgS4.opposite_ends 22) ≠ 22 := by
  decide

/-- C8: the move "100" (offset dx=-1, dy=-2 from cell 0) is a knight
offset with an in-range origin but an implied destination
0 + (-2)*6 + (-1) = -13 outside [0, 36); `execute_move` does not reject
it — it returns a state (and writes the mirrored connection at the
out-of-range index 2*(-13)+1, a heap overrun in the C code). -/
theorem execute_move_accepts_out_of_range_destination :
    (executeMove kgS0 ['1', '0', '0']).isSome ∧
    ((0 : ℤ) + (-2) * 6 + (-1) = -13) ∧
    ((executeMove kgS0 ['1', '0', '0']).getD kgS0).conn_pairs (2 * (-13) + 1) = 51 ∧
    ((executeMove kgS0 ['1', '0', '0']).getD kgS0).opposite_ends 0 = -13 := by
  decide

/-- C6 (counterexample): after the outcome sequence
success×4, failure×3, the accumulated failures (3) exceed half the
accumulated successes (4/2 = 2), so the claim's rule requires the
iteration limit to have been raised and the failure counter reset; the
code's rule (`nok < nfail / 2`) leaves the limit at 100 with the failure
counter at 3, while a run of the claim's own wording yields limit 150. -/
theorem hamilton_retry_claim_counterexample :
    hamiltonRetryRun [true, true, true, true, false, false, false] = ⟨100, 4, 3⟩ ∧
    (3 : ℕ) > 4 / 2 ∧
    claimRetryRun [true, true, true, true, false, false, false] = ⟨150, 4, 0⟩ := by
  decide

/-- C6 (amended): the retry counters start at `iter_limit = 100` with
both counters 0 and evolve as a fold of per-attempt steps; a successful
attempt only increments the success counter (the limit never changes); a
failed attempt increments the failure counter and then, exactly when the
accumulated successes are fewer than half the accumulated failures
(`nok < nfail / 2`, integer division), multiplies the limit by 3/2
(integer division) and resets the failure counter, leaving the success
counter unchanged. -/
theorem hamilton_retry_policy (s : RetryState) (outs : List Bool) (b : Bool) :
    hamiltonRetryRun [] = ⟨100, 0, 0⟩ ∧
    hamiltonRetryRun (outs ++ [b]) = hamiltonRetryStep (hamiltonRetryRun outs) b ∧
    hamiltonRetryStep s true = ⟨s.iter_limit, s.nok + 1, s.nfail⟩ ∧
    (s.nok < (s.nfail + 1) / 2 →
      hamiltonRetryStep s false = ⟨s.iter_limit * 3 / 2, s.nok, 0⟩) ∧
    (¬ s.nok < (s.nfail + 1) / 2 →
      hamiltonRetryStep s false = ⟨s.iter_limit, s.nok, s.nfail + 1⟩) := by
  refine ⟨rfl, ?_, ?_, ?_, ?_⟩
  · simp [hamiltonRetryRun]
  · rfl
  · intro h
    simp [hamiltonRetryStep, h]
  · intro h
    simp [hamiltonRetryStep, h]

/-- Witness for `hamilton_retry_policy` at the state (limit 100, 1
success, 3 failures) and a failing fourth attempt. -/
theorem hamilton_retry_policy_witness :
    (1 < (3 + 1) / 2 ∧
      hamiltonRetryStep ⟨100, 1, 3⟩ false = ⟨150, 1, 0⟩) ∧
    hamiltonRetryStep ⟨100, 1, 3⟩ true = ⟨100, 2, 3⟩ :=
  ⟨⟨by decide, (hamilton_retry_policy ⟨100, 1, 3⟩ [] false).2.2.2.1 (by decide)⟩,
    (hamilton_retry_policy ⟨100, 1, 3⟩ [] false).2.2.1⟩

/-- Every successful `execute_move` result is the `dup_game` copy with
only `conn_pairs`, `opposite_ends` and the cursor replaced. -/
theorem executeMove_shape (state : GameState) (mv : List Char) :
    executeMove state mv = none ∨
    ∃ cp oe p, executeMove state mv = some (emResult (dupGame state) cp oe p) := by
  cases h : executeMoveCore state mv with
  | none => exact Or.inl (by simp [executeMove, h])
  | some r => exact Or.inr ⟨r.1, r.2.1, r.2.2, by simp [executeMove, h]⟩

/-- C10: `execute_move` is a pure function of its input state (the
embedding manipulates only the `dup_game` copy), and when it returns a
state, that state's `w`, `h`, `ncells`, `nunvisited`, `ends` scalars, the
whole in-range `grid` array and the whole in-range `start_pairs` array
are identical to the input's; only `conn_pairs`, `opposite_ends` and the
cursor fields `cx`, `cy` are rebuilt. -/
theorem execute_move_frame (state : GameState) (mv : List Char) (gs2 : GameState)
    (h : executeMove state mv = some gs2) :
    gs2.w = state.w ∧ gs2.h = state.h ∧
    gs2.ncells = state.ncells ∧ gs2.nunvisited = state.nunvisited ∧
    gs2.ends0 = state.ends0 ∧ gs2.ends1 = state.ends1 ∧
    (∀ i, 0 ≤ i → i < state.w * state.h → gs2.grid i = state.grid i) ∧
    (∀ i, 0 ≤ i → i < 2 * (state.w * state.h) → gs2.start_pairs i = state.start_pairs i) := by
  rcases executeMove_shape state mv with hn | ⟨cp, oe, p, he⟩
  · rw [hn] at h
    exact absurd h (by simp)
  · rw [he] at h
    obtain rfl : emResult (dupGame state) cp oe p = gs2 := by
      exact Option.some.inj h
    refine ⟨rfl, rfl, rfl, rfl, rfl, rfl, ?_, ?_⟩
    · intro i h0 hi
      simp [emResult, dupGame, initGameState, h0, hi]
    · intro i h0 hi
      simp [emResult, dupGame, initGameState, h0, hi]

/-- Witness for `execute_move_frame`: the accepted move "436" on the
freshly loaded 6×6 state. -/
theorem execute_move_frame_witness :
    kgS1.w = kgS0.w ∧ kgS1.ends1 = kgS0.ends1 ∧
    kgS1.grid 14 = kgS0.grid 14 ∧ kgS1.start_pairs 28 = kgS0.start_pairs 28 := by
  have h := execute_move_frame kgS0 ['4', '3', '6'] kgS1 rfl
  exact ⟨h.1, h.2.2.2.2.2.1, h.2.2.2.2.2.2.1 14 (by decide) (by decide),
    h.2.2.2.2.2.2.2 28 (by decide) (by decide)⟩


/-! Digit-printing and address-arithmetic facts used for the
`new_game_desc`/`new_game` round trip. -/

theorem digitChar_toNat (n : ℕ) (h : n < 10) : (digitChar n).toNat = 48 + n := by
  interval_cases n <;> decide

theorem digitChar_isDigit (n : ℕ) (h : n < 10) : (digitChar n).isDigit = true := by
  interval_cases n <;> decide

theorem digitsVal_acc (ds : List ℕ) : ∀ a : ℤ,
    ds.foldl (fun (a : ℤ) (d : ℕ) => 10 * a + (d : ℤ)) a
      = a * 10 ^ ds.length + digitsVal ds := by
  induction ds with
  | nil => intro a; simp [digitsVal]
  | cons d ds ih =>
    intro a
    simp only [List.foldl_cons, List.length_cons, digitsVal] at *
    rw [ih (10 * a + (d : ℤ)), ih (10 * 0 + (d : ℤ))]
    ring

theorem digitsVal_cons (d : ℕ) (ds : List ℕ) :
    digitsVal (d :: ds) = (d : ℤ) * 10 ^ ds.length + digitsVal ds := by
  have h := digitsVal_acc ds (10 * 0 + (d : ℤ))
  simp only [digitsVal, List.foldl_cons] at *
  rw [h]
  ring

theorem digitsVal_concat (ds : List ℕ) (e : ℕ) :
    digitsVal (ds ++ [e]) = 10 * digitsVal ds + (e : ℤ) := by
  simp [digitsVal, List.foldl_append]

theorem decDigitsAux_spec : ∀ (fuel n : ℕ), n < fuel →
    digitsVal (decDigitsAux fuel n) = (n : ℤ) ∧ ∀ d ∈ decDigitsAux fuel n, d < 10 := by
  intro fuel
  induction fuel with
  | zero => intro n h; omega
  | succ fuel ih =>
    intro n hn
    by_cases h10 : n < 10
    · constructor
      · simp [decDigitsAux, h10, digitsVal]
      · intro d hd
        simp [decDigitsAux, h10] at hd
        omega
    · have hdiv : n / 10 < fuel := by omega
      obtain ⟨hv, hd⟩ := ih (n / 10) hdiv
      simp only [decDigitsAux, if_neg h10]
      constructor
      · rw [digitsVal_concat, hv]
        omega
      · intro d hd2
        rcases List.mem_append.1 hd2 with h | h
        · exact hd d h
        · simp only [List.mem_singleton] at h
          omega

theorem decDigits_spec (n : ℕ) :
    digitsVal (decDigits n) = (n : ℤ) ∧ ∀ d ∈ decDigits n, d < 10 :=
  decDigitsAux_spec (n + 1) n (Nat.lt_succ_self n)

theorem scanNat_digitBlock (ds : List ℕ) : ∀ rest : List Char,
    (∀ d ∈ ds, d < 10) →
    (∀ c, rest.head? = some c → c.isDigit = false) →
    scanNat (ds.map digitChar ++ rest) = (digitsVal ds, ds.length) := by
  induction ds with
  | nil =>
    intro rest _ hrest
    cases rest with
    | nil => simp [scanNat, digitsVal]
    | cons c cs =>
      have hc := hrest c rfl
      simp [scanNat, hc, digitsVal]
  | cons d ds ih =>
    intro rest hds hrest
    have hd10 : d < 10 := hds d (List.mem_cons_self d ds)
    have hrec := ih rest (fun x hx => hds x (List.mem_cons_of_mem d hx)) hrest
    simp only [List.map_cons, List.cons_append, scanNat, List.append_eq,
      digitChar_isDigit d hd10, if_true, hrec, digitsVal_cons, List.length_cons,
      Prod.mk.injEq]
    constructor
    · rw [digitChar_toNat d hd10]
      push_cast
      ring
    · trivial

theorem scanNat_natChars (n : ℕ) (rest : List Char)
    (hrest : ∀ c, rest.head? = some c → c.isDigit = false) :
    scanNat (natChars n ++ rest) = ((n : ℤ), (natChars n).length) := by
  obtain ⟨hv, hd⟩ := decDigits_spec n
  unfold natChars
  rw [scanNat_digitBlock (decDigits n) rest hd hrest, hv, List.length_map]

theorem attemptMove_eq_of_nonneg (pos : ℤ) (mv : ℤ × ℤ) (w h : ℤ)
    (ham : 0 ≤ attemptMove pos mv w h) :
    attemptMove pos mv w h = pos + mv.2 * w + mv.1 := by
  simp only [attemptMove] at ham ⊢
  split_ifs at ham ⊢ with hc
  · have hid := Int.tdiv_add_tmod pos w
    unfold cdiv cmod
    linear_combination hid
  · omega

theorem attemptMove_lt_size (pos : ℤ) (mv : ℤ × ℤ) (w h : ℤ)
    (ham : 0 ≤ attemptMove pos mv w h) :
    attemptMove pos mv w h < w * h := by
  simp only [attemptMove] at ham ⊢
  split_ifs at ham ⊢ with hc
  · obtain ⟨h1, h2, h3, h4⟩ := hc
    have hw : 0 < w := by linarith
    have hY1 : (cdiv pos w + mv.2) + 1 ≤ h := by linarith
    have hm := mul_le_mul_of_nonneg_right hY1 (le_of_lt hw)
    nlinarith [hm]
  · omega

theorem attemptMove_ne_self (pos : ℤ) (mv : ℤ × ℤ) (w h : ℤ) (hx : mv.1 ≠ 0)
    (hpos : 0 ≤ pos) (ham : 0 ≤ attemptMove pos mv w h) :
    attemptMove pos mv w h ≠ pos := by
  simp only [attemptMove] at ham ⊢
  split_ifs at ham ⊢ with hc
  · obtain ⟨h1, h2, h3, h4⟩ := hc
    intro heq
    have hw : 0 < w := by linarith
    have hid := Int.tdiv_add_tmod pos w
    have hm0 : 0 ≤ cmod pos w := Int.tmod_nonneg w hpos
    have hmw : cmod pos w < w := Int.tmod_lt_of_pos pos hw
    have key : mv.2 * w + mv.1 = 0 := by
      unfold cdiv cmod at heq
      linear_combination heq - hid
    rcases lt_trichotomy mv.2 0 with hlt | heq0 | hgt
    · have h1le : mv.2 ≤ -1 := by omega
      have := mul_le_mul_of_nonneg_right h1le (le_of_lt hw)
      linarith
    · rw [heq0] at key
      apply hx
      linarith
    · have h1le : 1 ≤ mv.2 := by omega
      have := mul_le_mul_of_nonneg_right h1le (le_of_lt hw)
      linarith
  · omega

theorem knightMoves_x_ne_zero (d : ℤ) (h0 : 0 ≤ d) (h8 : d < 8) :
    (knightMoves d).1 ≠ 0 := by
  interval_cases d <;> decide

theorem cdiv_two_mul_add (c s : ℤ) (hc : 0 ≤ c) (hs0 : 0 ≤ s) (hs2 : s < 2) :
    cdiv (2 * c + s) 2 = c := by
  unfold cdiv
  rw [Int.tdiv_eq_ediv (by omega) (by norm_num)]
  omega

theorem index_split (i : ℤ) (hi : 0 ≤ i) :
    i = 2 * cdiv i 2 + cmod i 2 ∧ 0 ≤ cmod i 2 ∧ cmod i 2 < 2 ∧ 0 ≤ cdiv i 2 := by
  unfold cdiv cmod
  have h1 := Int.tdiv_add_tmod i 2
  have h2 := Int.tmod_nonneg 2 hi
  have h3 := Int.tmod_lt_of_pos i (show (0:ℤ) < 2 by norm_num)
  have h4 : 0 ≤ i.tdiv 2 := Int.tdiv_nonneg hi (by norm_num)
  exact ⟨by linarith, h2, h3, h4⟩

/-! Layout of the description: the serialised string decomposes into the
grid digits followed by period-led triples, and the hint-reading loop of
`new_game` processes those triples as a fold of `applyTriple`. -/

theorem flatten_map_filterMap {α β γ : Type} (F : α → Option γ) (g : α → List β)
    (bd : γ → List β) : ∀ l : List α, (∀ a ∈ l, g a = ((F a).map bd).getD []) →
    (l.map g).flatten = ((l.filterMap F).map bd).flatten := by
  intro l
  induction l with
  | nil => intro _; simp
  | cons a l ih =>
    intro h
    have ha := h a (List.mem_cons_self a l)
    have hl := ih (fun x hx => h x (List.mem_cons_of_mem a hx))
    cases hF : F a with
    | none => simp [List.filterMap_cons, hF, ha, hl]
    | some t => simp [List.filterMap_cons, hF, ha, hl]

theorem conns_flatten_emit (gs : GameState) :
    ((List.range (2 * (gs.w * gs.h)).toNat).map (connChars gs)).flatten =
      ((emitList gs).map
        (fun t => digitChar t.1.toNat :: (natChars t.2.toNat ++ ['.']))).flatten := by
  unfold emitList
  apply flatten_map_filterMap
  intro i _
  unfold connChars
  dsimp only
  split_ifs with hcond <;> simp

theorem triplesChars_cons (t : ℤ × ℤ) (T : List (ℤ × ℤ)) :
    triplesChars (t :: T)
      = '.' :: digitChar t.1.toNat :: (natChars t.2.toNat ++ triplesChars T) := by
  simp [triplesChars]

theorem triplesChars_head (T : List (ℤ × ℤ)) :
    ∀ c, (triplesChars T).head? = some c → c.isDigit = false := by
  cases T with
  | nil =>
    intro c h
    simp [triplesChars] at h
  | cons t T =>
    intro c h
    rw [triplesChars_cons] at h
    simp only [List.head?_cons, Option.some.injEq] at h
    rw [← h]
    decide

theorem dropLast_dot_flatten (T : List (ℤ × ℤ)) :
    ('.' :: (T.map (fun t => digitChar t.1.toNat :: (natChars t.2.toNat ++ ['.']))).flatten).dropLast
      = triplesChars T := by
  induction T with
  | nil => simp [triplesChars]
  | cons t T ih =>
    have hsh : ('.' :: ((t :: T).map
          (fun t => digitChar t.1.toNat :: (natChars t.2.toNat ++ ['.']))).flatten)
        = ('.' :: digitChar t.1.toNat :: natChars t.2.toNat)
          ++ ('.' :: (T.map
            (fun t => digitChar t.1.toNat :: (natChars t.2.toNat ++ ['.']))).flatten) := by
      simp
    rw [hsh, List.dropLast_append_of_ne_nil _ (by simp), ih, triplesChars_cons]
    simp

theorem newGameDesc_decomp (gs : GameState) :
    newGameDesc gs = gridChars gs ++ triplesChars (emitList gs) := by
  unfold newGameDesc gridChars
  rw [conns_flatten_emit, List.append_assoc, List.singleton_append,
    List.dropLast_append_cons, dropLast_dot_flatten]

theorem parseConns_step (f : ℕ) (gs : GameState) (t : ℤ × ℤ) (rest : List Char)
    (ht1 : 0 ≤ t.1) (ht8 : t.1 < 8) (ht2 : 0 ≤ t.2)
    (hrest : ∀ c, rest.head? = some c → c.isDigit = false) :
    parseConns (f + 1) ('.' :: digitChar t.1.toNat :: (natChars t.2.toNat ++ rest)) gs
      = parseConns f rest (applyTriple gs t) := by
  have hscan := scanNat_natChars t.2.toNat rest hrest
  have hdc : ((digitChar t.1.toNat).toNat : ℤ) - 48 = t.1 := by
    rw [digitChar_toNat t.1.toNat (by omega)]
    omega
  simp only [parseConns, hscan, hdc, List.drop_left, Int.toNat_of_nonneg ht2]
  rfl

theorem parseConns_triples (T : List (ℤ × ℤ)) : ∀ (fuel : ℕ) (gs : GameState),
    (∀ t ∈ T, 0 ≤ t.1 ∧ t.1 < 8 ∧ 0 ≤ t.2) →
    T.length + 1 ≤ fuel →
    parseConns fuel (triplesChars T) gs = T.foldl applyTriple gs := by
  induction T with
  | nil =>
    intro fuel gs _ hfuel
    cases fuel with
    | zero => omega
    | succ f => simp [triplesChars, parseConns]
  | cons t T ih =>
    intro fuel gs hT hfuel
    cases fuel with
    | zero => simp at hfuel
    | succ f =>
      obtain ⟨ht1, ht8, ht2⟩ := hT t (List.mem_cons_self t T)
      rw [triplesChars_cons, parseConns_step f gs t (triplesChars T) ht1 ht8 ht2
        (triplesChars_head T), List.foldl_cons]
      exact ih f (applyTriple gs t) (fun x hx => hT x (List.mem_cons_of_mem t hx))
        (by simp only [List.length_cons] at hfuel; omega)

/-! The grid-reading stage of `new_game` consumes exactly the grid digits
and leaves the connection array untouched. -/

theorem newGameCells_run (cs : List Char) : ∀ (rest : List Char) (i : ℤ) (gs : GameState),
    (newGameCells cs.length (cs ++ rest) i gs).2 = rest ∧
    (newGameCells cs.length (cs ++ rest) i gs).1.w = gs.w ∧
    (newGameCells cs.length (cs ++ rest) i gs).1.h = gs.h ∧
    (newGameCells cs.length (cs ++ rest) i gs).1.conn_pairs = gs.conn_pairs ∧
    ∀ j : ℤ, (newGameCells cs.length (cs ++ rest) i gs).1.grid j =
      if i ≤ j ∧ j < i + (cs.length : ℤ) then ((cs.getD (j - i).toNat ' ').toNat : ℤ) - 48
      else gs.grid j := by
  induction cs with
  | nil =>
    intro rest i gs
    simp only [List.length_nil, List.nil_append, newGameCells]
    refine ⟨trivial, trivial, trivial, trivial, ?_⟩
    intro j
    rw [if_neg (by push_cast; omega)]
  | cons c cs ih =>
    intro rest i gs
    have key : ∀ g : GameState, g.w = gs.w → g.h = gs.h →
        g.conn_pairs = gs.conn_pairs →
        g.grid = upd gs.grid i ((c.toNat : ℤ) - 48) →
        (newGameCells cs.length (cs ++ rest) (i + 1) g).2 = rest ∧
        (newGameCells cs.length (cs ++ rest) (i + 1) g).1.w = gs.w ∧
        (newGameCells cs.length (cs ++ rest) (i + 1) g).1.h = gs.h ∧
        (newGameCells cs.length (cs ++ rest) (i + 1) g).1.conn_pairs = gs.conn_pairs ∧
        ∀ j : ℤ, (newGameCells cs.length (cs ++ rest) (i + 1) g).1.grid j =
          if i ≤ j ∧ j < i + ((cs.length : ℤ) + 1) then
            (((c :: cs).getD (j - i).toNat ' ').toNat : ℤ) - 48
          else gs.grid j := by
      intro g hw hh hcp hgrid
      obtain ⟨r1, r2, r3, r4, r5⟩ := ih rest (i + 1) g
      refine ⟨r1, by rw [r2, hw], by rw [r3, hh], by rw [r4, hcp], ?_⟩
      intro j
      rw [r5 j, hgrid]
      by_cases hj1 : i + 1 ≤ j ∧ j < i + 1 + (cs.length : ℤ)
      · rw [if_pos hj1, if_pos (by omega)]
        have hk : (j - i).toNat = (j - (i + 1)).toNat + 1 := by omega
        rw [hk, List.getD_cons_succ]
      · rw [if_neg hj1]
        by_cases hj2 : j = i
        · subst hj2
          rw [upd_same, if_pos (by omega)]
          have hk : (j - j).toNat = 0 := by omega
          rw [hk, List.getD_cons_zero]
        · rw [upd_other gs.grid i j _ hj2, if_neg (by omega)]
    simp only [List.length_cons, List.cons_append, newGameCells]
    push_cast
    split_ifs with h1 h2
    · exact key _ rfl rfl rfl rfl
    · exact key _ rfl rfl rfl rfl
    · exact key _ rfl rfl rfl rfl

theorem gridChars_length (gs : GameState) : (gridChars gs).length = (gs.w * gs.h).toNat := by
  simp [gridChars]

theorem gridChars_getD (gs : GameState) (j : ℤ) (h0 : 0 ≤ j) (hj : j < gs.w * gs.h) :
    (gridChars gs).getD (j - 0).toNat ' ' = digitChar (gs.grid j).toNat := by
  have hjN : j.toNat < (gs.w * gs.h).toNat := by omega
  have hsub : (j - 0).toNat = j.toNat := by omega
  rw [hsub]
  simp [gridChars, List.getD_eq_getElem?_getD, List.getElem?_map, List.getElem?_range,
    hjN, Int.toNat_of_nonneg h0]

theorem triplesChars_length_ge (T : List (ℤ × ℤ)) : T.length ≤ (triplesChars T).length := by
  induction T with
  | nil => simp [triplesChars]
  | cons t T ih =>
    rw [triplesChars_cons]
    simp only [List.length_cons]
    simp
    omega

/-! Effect of the hint loop on the per-cell slot lists. -/

theorem applyTriple_conn (g : GameState) (t : ℤ × ℤ) :
    (applyTriple g t).conn_pairs
      = insSlot (insSlot g.conn_pairs t.2 (t.1 + 48))
          (cellStep g.w t.2 t.1) (oppDir t.1 + 48) := rfl

theorem applyTriple_w (g : GameState) (t : ℤ × ℤ) : (applyTriple g t).w = g.w := rfl

theorem applyTriple_grid (g : GameState) (t : ℤ × ℤ) :
    (applyTriple g t).grid = g.grid := rfl

theorem foldl_applyTriple_w (T : List (ℤ × ℤ)) : ∀ g : GameState,
    (T.foldl applyTriple g).w = g.w := by
  induction T with
  | nil => intro g; rfl
  | cons t T ih => intro g; rw [List.foldl_cons, ih (applyTriple g t), applyTriple_w]

theorem foldl_applyTriple_grid (T : List (ℤ × ℤ)) : ∀ g : GameState,
    (T.foldl applyTriple g).grid = g.grid := by
  induction T with
  | nil => intro g; rfl
  | cons t T ih => intro g; rw [List.foldl_cons, ih (applyTriple g t), applyTriple_grid]

theorem slotsList_length_le (cp : ℤ → ℤ) (c : ℤ) : (slotsList cp c).length ≤ 2 := by
  unfold slotsList
  split_ifs <;> simp

theorem insSlot_other (cp : ℤ → ℤ) (p v c : ℤ) (hpc : p ≠ c) :
    insSlot cp p v (2 * c) = cp (2 * c) ∧ insSlot cp p v (2 * c + 1) = cp (2 * c + 1) := by
  unfold insSlot
  constructor <;> exact upd_other _ _ _ _ (by split_ifs <;> omega)

theorem insSlot_slotsList_other (cp : ℤ → ℤ) (p v c : ℤ) (hpc : p ≠ c) :
    slotsList (insSlot cp p v) c = slotsList cp c := by
  obtain ⟨h0, h1⟩ := insSlot_other cp p v c hpc
  unfold slotsList
  rw [h0, h1]

theorem insSlot_leftFilled_other (cp : ℤ → ℤ) (p v c : ℤ) (hpc : p ≠ c)
    (h : leftFilled cp c) : leftFilled (insSlot cp p v) c := by
  obtain ⟨h0, h1⟩ := insSlot_other cp p v c hpc
  unfold leftFilled at *
  rw [h0, h1]
  exact h

theorem insSlot_self (cp : ℤ → ℤ) (c v : ℤ) (hv : v ≠ 56)
    (hlen : (slotsList cp c).length ≤ 1) (hlf : leftFilled cp c) :
    slotsList (insSlot cp c v) c = slotsList cp c ++ [v - 48] ∧
    leftFilled (insSlot cp c v) c := by
  by_cases h0 : cp (2 * c) = 56
  · have h1 : cp (2 * c + 1) = 56 := hlf h0
    have hidx : (2 * c + (if cp (2 * c) ≠ 56 then 1 else 0)) = 2 * c := by
      rw [if_neg (by simp [h0])]
      ring
    have r0 : insSlot cp c v (2 * c) = v := by
      unfold insSlot
      rw [hidx]
      exact upd_same cp (2 * c) v
    have r1 : insSlot cp c v (2 * c + 1) = cp (2 * c + 1) := by
      unfold insSlot
      rw [hidx]
      exact upd_other _ _ _ _ (by omega)
    constructor
    · unfold slotsList
      rw [r0, r1]
      simp [hv, h0, h1]
    · intro habs
      rw [r0] at habs
      exact absurd habs hv
  · have h1 : cp (2 * c + 1) = 56 := by
      by_contra hh
      unfold slotsList at hlen
      rw [if_neg h0, if_neg hh] at hlen
      simp at hlen
    have hidx : (2 * c + (if cp (2 * c) ≠ 56 then 1 else 0)) = 2 * c + 1 := by
      rw [if_pos h0]
    have r0 : insSlot cp c v (2 * c) = cp (2 * c) := by
      unfold insSlot
      rw [hidx]
      exact upd_other _ _ _ _ (by omega)
    have r1 : insSlot cp c v (2 * c + 1) = v := by
      unfold insSlot
      rw [hidx]
      exact upd_same cp (2 * c + 1) v
    constructor
    · unfold slotsList
      rw [r0, r1]
      simp [hv, h0, h1]
    · intro habs
      rw [r0] at habs
      exact absurd habs h0

theorem applyTriple_slots (g : GameState) (t : ℤ × ℤ) (c : ℤ)
    (ht1 : 0 ≤ t.1) (ht8 : t.1 < 8)
    (hne : cellStep g.w t.2 t.1 ≠ t.2)
    (hcap : (slotsList g.conn_pairs c).length + (insVal g.w t c).length ≤ 2)
    (hlf : leftFilled g.conn_pairs c) :
    slotsList (applyTriple g t).conn_pairs c
      = slotsList g.conn_pairs c ++ insVal g.w t c ∧
    leftFilled (applyTriple g t).conn_pairs c := by
  have hv1 : t.1 + 48 ≠ 56 := by omega
  have hv2 : oppDir t.1 + 48 ≠ 56 := by
    obtain ⟨ho1, ho2⟩ := oppDir_range t.1 ht1 ht8
    omega
  rw [applyTriple_conn]
  by_cases hsrc : t.2 = c
  · have hdst : cellStep g.w t.2 t.1 ≠ c := by
      intro hcontra
      exact hne (hcontra.trans hsrc.symm)
    have hdstc : cellStep g.w c t.1 ≠ c := by
      rw [← hsrc]
      exact hne
    have hins : insVal g.w t c = [t.1] := by
      unfold insVal
      rw [if_pos hsrc, if_neg hdst]
      simp
    rw [hins] at hcap ⊢
    simp only [List.length_singleton] at hcap
    rw [hsrc]
    obtain ⟨hs1, hl1⟩ := insSlot_self g.conn_pairs c (t.1 + 48) hv1 (by omega) hlf
    rw [insSlot_slotsList_other _ _ _ _ hdstc, hs1]
    refine ⟨by simp, insSlot_leftFilled_other _ _ _ _ hdstc hl1⟩
  · by_cases hdst : cellStep g.w t.2 t.1 = c
    · have hins : insVal g.w t c = [oppDir t.1] := by
        unfold insVal
        rw [if_neg hsrc, if_pos hdst]
        simp
      rw [hins] at hcap ⊢
      simp only [List.length_singleton] at hcap
      have hs0 : slotsList (insSlot g.conn_pairs t.2 (t.1 + 48)) c
          = slotsList g.conn_pairs c := insSlot_slotsList_other _ _ _ _ hsrc
      have hl0 : leftFilled (insSlot g.conn_pairs t.2 (t.1 + 48)) c :=
        insSlot_leftFilled_other _ _ _ _ hsrc hlf
      rw [hdst]
      obtain ⟨hs1, hl1⟩ := insSlot_self (insSlot g.conn_pairs t.2 (t.1 + 48)) c
        (oppDir t.1 + 48) hv2 (by rw [hs0]; omega) hl0
      rw [hs1, hs0]
      refine ⟨by simp, hl1⟩
    · have hins : insVal g.w t c = [] := by
        unfold insVal
        rw [if_neg hsrc, if_neg hdst]
        simp
      rw [hins]
      rw [insSlot_slotsList_other _ _ _ _ hdst, insSlot_slotsList_other _ _ _ _ hsrc]
      refine ⟨by simp, ?_⟩
      exact insSlot_leftFilled_other _ _ _ _ hdst
        (insSlot_leftFilled_other _ _ _ _ hsrc hlf)

theorem foldl_applyTriple_slots (T : List (ℤ × ℤ)) : ∀ (g : GameState) (c : ℤ),
    (∀ t ∈ T, (0 ≤ t.1 ∧ t.1 < 8) ∧ cellStep g.w t.2 t.1 ≠ t.2) →
    (slotsList g.conn_pairs c).length + (insList g.w T c).length ≤ 2 →
    leftFilled g.conn_pairs c →
    slotsList (T.foldl applyTriple g).conn_pairs c
      = slotsList g.conn_pairs c ++ insList g.w T c ∧
    leftFilled (T.foldl applyTriple g).conn_pairs c := by
  induction T with
  | nil =>
    intro g c _ _ hlf
    refine ⟨by simp [insList], hlf⟩
  | cons t T ih =>
    intro g c hT hcap hlf
    obtain ⟨⟨ht1, ht8⟩, hne⟩ := hT t (List.mem_cons_self t T)
    have hinsc : insList g.w (t :: T) c = insVal g.w t c ++ insList g.w T c := by
      simp [insList]
    rw [hinsc, List.length_append] at hcap
    have hstep := applyTriple_slots g t c ht1 ht8 hne (by omega) hlf
    rw [List.foldl_cons]
    have hT' : ∀ x ∈ T, (0 ≤ x.1 ∧ x.1 < 8) ∧ cellStep (applyTriple g t).w x.2 x.1 ≠ x.2 := by
      intro x hx
      rw [applyTriple_w]
      exact hT x (List.mem_cons_of_mem t hx)
    have hcap' : (slotsList (applyTriple g t).conn_pairs c).length
        + (insList (applyTriple g t).w T c).length ≤ 2 := by
      rw [hstep.1, applyTriple_w, List.length_append]
      omega
    obtain ⟨hs, hl⟩ := ih (applyTriple g t) c hT' hcap' hstep.2
    rw [applyTriple_w] at hs
    rw [hs, hstep.1, hinsc, List.append_assoc]
    exact ⟨rfl, hl⟩

/-! Facts about the emitted triples of `new_game_desc` under the
serialisability invariant. -/

theorem serialWF_cell (gs : GameState) (hwf : SerialWF gs) (c : ℤ)
    (h0 : 0 ≤ c) (hc : c < gs.w * gs.h) :
    (0 ≤ gs.grid c ∧ gs.grid c ≤ 3) ∧
    leftFilled gs.conn_pairs c ∧
    (gs.conn_pairs (2 * c) ≠ 56 → gs.conn_pairs (2 * c) ≠ gs.conn_pairs (2 * c + 1)) ∧
    ∀ s : ℤ, 0 ≤ s → s < 2 →
      gs.conn_pairs (2 * c + s) = 56 ∨
      (48 ≤ gs.conn_pairs (2 * c + s) ∧ gs.conn_pairs (2 * c + s) < 56 ∧
        0 ≤ attemptMove c (knightMoves (gs.conn_pairs (2 * c + s) - 48)) gs.w gs.h ∧
        hasConn gs (cellStep gs.w c (gs.conn_pairs (2 * c + s) - 48))
          (oppDir (gs.conn_pairs (2 * c + s) - 48))) := by
  obtain ⟨hw, hh, hcell⟩ := hwf
  have hcN : c.toNat < (gs.w * gs.h).toNat := by omega
  have hcast : ((c.toNat : ℕ) : ℤ) = c := Int.toNat_of_nonneg h0
  have h := hcell c.toNat hcN
  rw [hcast] at h
  obtain ⟨hg, hlf, hdist, hslot⟩ := h
  refine ⟨hg, hlf, hdist, ?_⟩
  intro s hs0 hs2
  have hsN : ((s.toNat : ℕ) : ℤ) = s := Int.toNat_of_nonneg hs0
  have hres := hslot s.toNat (by omega)
  rw [hsN] at hres
  exact hres

theorem mem_emitList (gs : GameState) (t : ℤ × ℤ) :
    t ∈ emitList gs ↔ ∃ i : ℕ, i < (2 * (gs.w * gs.h)).toNat ∧
      gs.conn_pairs (i : ℤ) - 48 = t.1 ∧ cdiv (i : ℤ) 2 = t.2 ∧
      t.1 < 8 ∧ t.2 < attemptMove t.2 (knightMoves t.1) gs.w gs.h := by
  unfold emitList
  rw [List.mem_filterMap]
  constructor
  · rintro ⟨i, hir, hf⟩
    rw [List.mem_range] at hir
    dsimp only at hf
    split_ifs at hf with hcond
    · rw [Option.some.injEq] at hf
      subst hf
      exact ⟨i, hir, rfl, rfl, hcond.1, hcond.2⟩
  · rintro ⟨i, hir, hmv, hcell, h8, hlt⟩
    refine ⟨i, List.mem_range.mpr hir, ?_⟩
    dsimp only
    rw [hmv, hcell, if_pos ⟨h8, hlt⟩, Prod.mk.eta]

theorem emit_facts (gs : GameState) (hwf : SerialWF gs) (t : ℤ × ℤ)
    (ht : t ∈ emitList gs) :
    0 ≤ t.1 ∧ t.1 < 8 ∧ 0 ≤ t.2 ∧ t.2 < gs.w * gs.h ∧
    (gs.conn_pairs (2 * t.2) = t.1 + 48 ∨ gs.conn_pairs (2 * t.2 + 1) = t.1 + 48) ∧
    attemptMove t.2 (knightMoves t.1) gs.w gs.h = cellStep gs.w t.2 t.1 ∧
    0 ≤ cellStep gs.w t.2 t.1 ∧ cellStep gs.w t.2 t.1 < gs.w * gs.h ∧
    t.2 < cellStep gs.w t.2 t.1 ∧
    hasConn gs (cellStep gs.w t.2 t.1) (oppDir t.1) := by
  obtain ⟨i, hir, hmv, hcell, h8, hlt⟩ := (mem_emitList gs t).1 ht
  have hw : 0 < gs.w := hwf.1
  have hh : 0 < gs.h := hwf.2.1
  have hwh : 0 < gs.w * gs.h := mul_pos hw hh
  have hiZ : (i : ℤ) < 2 * (gs.w * gs.h) := by
    have hcast : ((2 * (gs.w * gs.h)).toNat : ℤ) = 2 * (gs.w * gs.h) :=
      Int.toNat_of_nonneg (by omega)
    omega
  obtain ⟨hsplit, hr0, hr2, hq0⟩ := index_split (i : ℤ) (by omega)
  have ht2' : 0 ≤ t.2 := by rw [← hcell]; exact hq0
  have ht2lt : t.2 < gs.w * gs.h := by
    rw [← hcell]
    omega
  have hival : gs.conn_pairs (i : ℤ) = t.1 + 48 := by omega
  have hslot : gs.conn_pairs (2 * t.2) = t.1 + 48 ∨
      gs.conn_pairs (2 * t.2 + 1) = t.1 + 48 := by
    rcases (show cmod (i : ℤ) 2 = 0 ∨ cmod (i : ℤ) 2 = 1 by omega) with hr | hr
    · left
      have hieq : (2 * t.2 : ℤ) = (i : ℤ) := by rw [← hcell]; omega
      rw [hieq]
      exact hival
    · right
      have hieq : (2 * t.2 + 1 : ℤ) = (i : ℤ) := by rw [← hcell]; omega
      rw [hieq]
      exact hival
  obtain ⟨_, _, _, hslots⟩ := serialWF_cell gs hwf t.2 ht2' ht2lt
  have hs := hslots (cmod (i : ℤ) 2) hr0 hr2
  have hieq2 : (2 * t.2 + cmod (i : ℤ) 2 : ℤ) = (i : ℤ) := by rw [← hcell]; omega
  rw [hieq2, hival] at hs
  rcases hs with hs | hs
  · exact absurd hs (by omega)
  obtain ⟨hge, hlt56, ham, hconn⟩ := hs
  have ht1' : 0 ≤ t.1 := by omega
  have hsimp : t.1 + 48 - 48 = t.1 := by ring
  rw [hsimp] at ham hconn
  have heq : attemptMove t.2 (knightMoves t.1) gs.w gs.h = cellStep gs.w t.2 t.1 :=
    attemptMove_eq_of_nonneg t.2 (knightMoves t.1) gs.w gs.h ham
  refine ⟨ht1', h8, ht2', ht2lt, hslot, heq, ?_, ?_, ?_, hconn⟩
  · rw [← heq]
    exact ham
  · rw [← heq]
    exact attemptMove_lt_size _ _ _ _ ham
  · rw [← heq]
    exact hlt

theorem emit_bounds (gs : GameState) (hwf : SerialWF gs) :
    ∀ t ∈ emitList gs, 0 ≤ t.1 ∧ t.1 < 8 ∧ 0 ≤ t.2 := by
  intro t ht
  obtain ⟨h1, h2, h3, _⟩ := emit_facts gs hwf t ht
  exact ⟨h1, h2, h3⟩

theorem emit_step_ne (gs : GameState) (hwf : SerialWF gs) :
    ∀ t ∈ emitList gs, (0 ≤ t.1 ∧ t.1 < 8) ∧ cellStep gs.w t.2 t.1 ≠ t.2 := by
  intro t ht
  obtain ⟨h1, h2, _, _, _, _, _, _, hstep, _⟩ := emit_facts gs hwf t ht
  exact ⟨⟨h1, h2⟩, by omega⟩

/-! No direction is stored twice at a cell: distinct emitted triples make
disjoint insertions. -/

theorem pairwise_range_strong (N : ℕ) :
    (List.range N).Pairwise (fun i j => i < j ∧ i < N ∧ j < N) := by
  rw [List.pairwise_iff_getElem]
  intro i j hi hj hij
  simp only [List.getElem_range] at *
  exact ⟨hij, by simpa using hi, by simpa using hj⟩

theorem index_two_cases (k : ℕ) (c : ℤ) (hk : cdiv (k : ℤ) 2 = c) :
    (k : ℤ) = 2 * c ∨ (k : ℤ) = 2 * c + 1 := by
  obtain ⟨hsplit, hr0, hr2, _⟩ := index_split (k : ℤ) (Int.natCast_nonneg k)
  omega

theorem two_slots_same (gs : GameState) (hwf : SerialWF gs) (q v : ℤ)
    (h0 : 0 ≤ q) (hq : q < gs.w * gs.h) (hv : v ≠ 56)
    (e0 : gs.conn_pairs (2 * q) = v) (e1 : gs.conn_pairs (2 * q + 1) = v) : False := by
  obtain ⟨_, _, hdist, _⟩ := serialWF_cell gs hwf q h0 hq
  exact hdist (by rw [e0]; exact hv) (by rw [e0, e1])

theorem mem_insVal (w : ℤ) (x : ℤ × ℤ) (c e : ℤ) (he : e ∈ insVal w x c) :
    (x.2 = c ∧ e = x.1) ∨ (cellStep w x.2 x.1 = c ∧ e = oppDir x.1) := by
  unfold insVal at he
  rcases List.mem_append.1 he with h | h
  · split_ifs at h with hc
    · simp at h
      exact Or.inl ⟨hc, h⟩
    · simp at h
  · split_ifs at h with hc
    · simp at h
      exact Or.inr ⟨hc, h⟩
    · simp at h

theorem insList_nodup (gs : GameState) (hwf : SerialWF gs) (c : ℤ) :
    (insList gs.w (emitList gs) c).Nodup := by
  unfold insList
  rw [List.nodup_flatMap]
  constructor
  · intro t ht
    obtain ⟨_, _, _, _, _, _, _, _, hstep, _⟩ := emit_facts gs hwf t ht
    unfold insVal
    split_ifs with hs hd hd
    · exfalso
      omega
    · simp
    · simp
    · simp
  · unfold emitList
    rw [List.pairwise_filterMap]
    refine List.Pairwise.imp ?_ (pairwise_range_strong ((2 * (gs.w * gs.h)).toNat))
    intro i j hij t ht t' ht'
    rw [Option.mem_def] at ht ht'
    have htmem : t ∈ emitList gs := by
      unfold emitList
      exact List.mem_filterMap.mpr ⟨i, List.mem_range.mpr hij.2.1, ht⟩
    have htmem' : t' ∈ emitList gs := by
      unfold emitList
      exact List.mem_filterMap.mpr ⟨j, List.mem_range.mpr hij.2.2, ht'⟩
    dsimp only at ht ht'
    split_ifs at ht with hcondA
    rw [Option.some.injEq] at ht
    split_ifs at ht' with hcondB
    rw [Option.some.injEq] at ht'
    have he1 : gs.conn_pairs (i : ℤ) - 48 = t.1 := by rw [← ht]
    have he2 : cdiv (i : ℤ) 2 = t.2 := by rw [← ht]
    have hf1 : gs.conn_pairs (j : ℤ) - 48 = t'.1 := by rw [← ht']
    have hf2 : cdiv (j : ℤ) 2 = t'.2 := by rw [← ht']
    obtain ⟨ha1, ha2, ha3, ha4, _, _, _, _, haStep, _⟩ := emit_facts gs hwf t htmem
    obtain ⟨hb1, hb2, hb3, hb4, _, _, _, _, hbStep, _⟩ := emit_facts gs hwf t' htmem'
    intro d hdA hdB
    rcases mem_insVal gs.w t c d hdA with ⟨hA1, hA2⟩ | ⟨hA1, hA2⟩ <;>
      rcases mem_insVal gs.w t' c d hdB with ⟨hB1, hB2⟩ | ⟨hB1, hB2⟩
    · -- both triples start at c: two distinct slot indices of c hold the same code
      rcases index_two_cases i c (by rw [he2, hA1]) with hi2 | hi2 <;>
        rcases index_two_cases j c (by rw [hf2, hB1]) with hj2 | hj2
      · omega
      · refine two_slots_same gs hwf c (t.1 + 48) (by omega) (by rw [← hA1]; exact ha4)
          (by omega) (by rw [← hi2]; omega) (by rw [← hj2]; omega)
      · refine two_slots_same gs hwf c (t.1 + 48) (by omega) (by rw [← hA1]; exact ha4)
          (by omega) (by rw [← hj2]; omega) (by rw [← hi2]; omega)
      · omega
    · -- t starts at c, t' arrives at c: the two endpoints order both ways
      have hdAo : t.1 = oppDir t'.1 := by omega
      have hkey : cellStep gs.w t.2 t.1 = t'.2 := by
        rw [hA1, hdAo, ← hB1]
        exact cellStep_opp gs.w t'.2 t'.1 hb1 hb2
      omega
    · have hdAo : t'.1 = oppDir t.1 := by omega
      have hkey : cellStep gs.w t'.2 t'.1 = t.2 := by
        rw [hB1, hdAo, ← hA1]
        exact cellStep_opp gs.w t.2 t.1 ha1 ha2
      omega
    · -- both arrive at c: the triples coincide, so two slots of one cell repeat
      have hdd : oppDir t.1 = oppDir t'.1 := by omega
      have hdAB : t.1 = t'.1 := by
        have h1 := oppDir_oppDir t.1 ha1 ha2
        have h2 := oppDir_oppDir t'.1 hb1 hb2
        rw [← h1, ← h2, hdd]
      have hcells : cellStep gs.w t.2 t.1 = cellStep gs.w t'.2 t.1 := by
        rw [hA1, hdAB, hB1]
      have hC : t.2 = t'.2 := by
        unfold cellStep at hcells
        linarith
      rcases index_two_cases i t.2 he2 with hi2 | hi2 <;>
        rcases index_two_cases j t.2 (by rw [hf2, hC]) with hj2 | hj2
      · omega
      · refine two_slots_same gs hwf t.2 (t.1 + 48) ha3 ha4 (by omega)
          (by rw [← hi2]; omega) (by rw [← hj2]; omega)
      · refine two_slots_same gs hwf t.2 (t.1 + 48) ha3 ha4 (by omega)
          (by rw [← hj2]; omega) (by rw [← hi2]; omega)
      · omega

/-! The set of directions the hint loop stores at a cell is exactly the
set serialised from that cell. -/

theorem mem_slotsList (cp : ℤ → ℤ) (c d : ℤ) (hd : d ≠ 8) :
    d ∈ slotsList cp c ↔ (cp (2 * c) = d + 48 ∨ cp (2 * c + 1) = d + 48) := by
  unfold slotsList
  rw [List.mem_append]
  constructor
  · rintro (h | h)
    · left
      by_cases hc : cp (2 * c) = 56
      · rw [if_pos hc] at h
        simp at h
      · rw [if_neg hc] at h
        simp at h
        omega
    · right
      by_cases hc : cp (2 * c + 1) = 56
      · rw [if_pos hc] at h
        simp at h
      · rw [if_neg hc] at h
        simp at h
        omega
  · rintro (h | h)
    · left
      rw [if_neg (by omega)]
      simp
      omega
    · right
      rw [if_neg (by omega)]
      simp
      omega

theorem emit_of_slot (gs : GameState) (q s e : ℤ)
    (hq0 : 0 ≤ q) (hq : q < gs.w * gs.h) (hs : s = 0 ∨ s = 1)
    (hv : gs.conn_pairs (2 * q + s) = e + 48) (he8 : e < 8)
    (hlt : q < attemptMove q (knightMoves e) gs.w gs.h) :
    ((e, q) : ℤ × ℤ) ∈ emitList gs := by
  rw [mem_emitList]
  have hcast : (((2 * q + s).toNat : ℕ) : ℤ) = 2 * q + s := Int.toNat_of_nonneg (by omega)
  refine ⟨(2 * q + s).toNat, by omega, ?_, ?_, he8, hlt⟩
  · dsimp only
    rw [hcast, hv]
    ring
  · dsimp only
    rw [hcast]
    exact cdiv_two_mul_add q s hq0 (by omega) (by omega)

theorem insList_subset (gs : GameState) (hwf : SerialWF gs) (c : ℤ) :
    ∀ d ∈ insList gs.w (emitList gs) c, d ∈ slotsList gs.conn_pairs c := by
  intro d hd
  unfold insList at hd
  rw [List.mem_flatMap] at hd
  obtain ⟨t, htmem, hdv⟩ := hd
  obtain ⟨ha1, ha2, _, _, hslotA, _, _, _, _, hconnA⟩ := emit_facts gs hwf t htmem
  rcases mem_insVal gs.w t c d hdv with ⟨hA1, hA2⟩ | ⟨hA1, hA2⟩
  · rw [mem_slotsList _ _ _ (by omega), hA2, ← hA1]
    exact hslotA
  · have hoD := oppDir_range t.1 ha1 ha2
    rw [mem_slotsList _ _ _ (by omega), hA2, ← hA1]
    unfold hasConn at hconnA
    exact hconnA

theorem slotsList_subset (gs : GameState) (hwf : SerialWF gs) (c : ℤ)
    (h0 : 0 ≤ c) (hc : c < gs.w * gs.h) :
    ∀ d ∈ slotsList gs.conn_pairs c, d ∈ insList gs.w (emitList gs) c := by
  intro d hd
  have hslot : ∃ s : ℤ, (s = 0 ∨ s = 1) ∧ gs.conn_pairs (2 * c + s) = d + 48 ∧
      gs.conn_pairs (2 * c + s) ≠ 56 := by
    unfold slotsList at hd
    rcases List.mem_append.1 hd with h | h
    · by_cases h56 : gs.conn_pairs (2 * c) = 56
      · rw [if_pos h56] at h
        simp at h
      · rw [if_neg h56] at h
        simp at h
        refine ⟨0, Or.inl rfl, ?_, ?_⟩
        · rw [show (2 * c + (0 : ℤ)) = 2 * c from by ring]
          omega
        · rw [show (2 * c + (0 : ℤ)) = 2 * c from by ring]
          exact h56
    · by_cases h56 : gs.conn_pairs (2 * c + 1) = 56
      · rw [if_pos h56] at h
        simp at h
      · rw [if_neg h56] at h
        simp at h
        exact ⟨1, Or.inr rfl, by omega, h56⟩
  obtain ⟨s, hs01, hv, hv56⟩ := hslot
  obtain ⟨_, _, _, hslots⟩ := serialWF_cell gs hwf c h0 hc
  have hwfslot := hslots s (by omega) (by omega)
  rw [hv] at hwfslot
  rcases hwfslot with h56 | ⟨hge, hlt56, ham, hconn⟩
  · exfalso
    omega
  · have hd0 : 0 ≤ d := by omega
    have hd8 : d < 8 := by omega
    have hsimp : d + 48 - 48 = d := by ring
    rw [hsimp] at ham hconn
    have heqm : attemptMove c (knightMoves d) gs.w gs.h = cellStep gs.w c d :=
      attemptMove_eq_of_nonneg c (knightMoves d) gs.w gs.h ham
    have hmlt := attemptMove_lt_size c (knightMoves d) gs.w gs.h ham
    have hmne := attemptMove_ne_self c (knightMoves d) gs.w gs.h
      (knightMoves_x_ne_zero d hd0 hd8) h0 ham
    unfold insList
    rw [List.mem_flatMap]
    rcases hmne.lt_or_lt with hlt | hlt
    · -- destination below the cell: the triple is emitted at the destination
      have hm0 : 0 ≤ cellStep gs.w c d := by omega
      have hmwh : cellStep gs.w c d < gs.w * gs.h := by omega
      have hmc : cellStep gs.w c d < c := by omega
      have hoD := oppDir_range d hd0 hd8
      have hslot2 : ∃ s' : ℤ, (s' = 0 ∨ s' = 1) ∧
          gs.conn_pairs (2 * cellStep gs.w c d + s') = oppDir d + 48 := by
        unfold hasConn at hconn
        rcases hconn with h | h
        · refine ⟨0, Or.inl rfl, ?_⟩
          rw [show (2 * cellStep gs.w c d + (0 : ℤ)) = 2 * cellStep gs.w c d from by ring]
          exact h
        · exact ⟨1, Or.inr rfl, h⟩
      obtain ⟨s', hs01', hv'⟩ := hslot2
      obtain ⟨_, _, _, hslots'⟩ := serialWF_cell gs hwf (cellStep gs.w c d) hm0 hmwh
      have hwfslot' := hslots' s' (by omega) (by omega)
      rw [hv'] at hwfslot'
      rcases hwfslot' with h56 | ⟨_, _, ham', _⟩
      · exact absurd h56 (by omega)
      have hsimp' : oppDir d + 48 - 48 = oppDir d := by ring
      rw [hsimp'] at ham'
      have heqm2 : attemptMove (cellStep gs.w c d) (knightMoves (oppDir d)) gs.w gs.h
          = cellStep gs.w (cellStep gs.w c d) (oppDir d) :=
        attemptMove_eq_of_nonneg _ _ _ _ ham'
      have hback : cellStep gs.w (cellStep gs.w c d) (oppDir d) = c :=
        cellStep_opp gs.w c d hd0 hd8
      have hmem := emit_of_slot gs (cellStep gs.w c d) s' (oppDir d) hm0 hmwh hs01' hv'
        hoD.2 (by rw [heqm2, hback]; omega)
      refine ⟨(oppDir d, cellStep gs.w c d), hmem, ?_⟩
      unfold insVal
      dsimp only
      rw [if_neg (by omega), if_pos hback]
      refine List.mem_append.2 (Or.inr ?_)
      rw [List.mem_singleton]
      exact (oppDir_oppDir d hd0 hd8).symm
    · -- destination above the cell: the triple is emitted at the cell itself
      have hmem := emit_of_slot gs c s d h0 hc hs01 hv hd8 (by omega)
      refine ⟨(d, c), hmem, ?_⟩
      unfold insVal
      dsimp only
      rw [if_pos rfl]
      exact List.mem_append.2 (Or.inl (List.mem_singleton.2 rfl))

theorem slotsList_nodup (gs : GameState) (hwf : SerialWF gs) (c : ℤ)
    (h0 : 0 ≤ c) (hc : c < gs.w * gs.h) : (slotsList gs.conn_pairs c).Nodup := by
  obtain ⟨_, _, hdist, _⟩ := serialWF_cell gs hwf c h0 hc
  unfold slotsList
  split_ifs with h1 h2 h2
  · simp
  · simp
  · simp
  · have hne := hdist h1
    simp
    omega

theorem insList_length_le (gs : GameState) (hwf : SerialWF gs) (c : ℤ)
    (h0 : 0 ≤ c) (hc : c < gs.w * gs.h) :
    (insList gs.w (emitList gs) c).length ≤ 2 := by
  have hnd := insList_nodup gs hwf c
  have hsub : insList gs.w (emitList gs) c ⊆ slotsList gs.conn_pairs c := by
    intro d hd
    exact insList_subset gs hwf c d hd
  calc (insList gs.w (emitList gs) c).length
      = (insList gs.w (emitList gs) c).toFinset.card :=
        (List.toFinset_card_of_nodup hnd).symm
    _ ≤ (slotsList gs.conn_pairs c).toFinset.card := by
        refine Finset.card_le_card ?_
        intro x hx
        rw [List.mem_toFinset] at hx ⊢
        exact hsub hx
    _ ≤ (slotsList gs.conn_pairs c).length := List.toFinset_card_le _
    _ ≤ 2 := slotsList_length_le _ _

/-! Assembling the round trip: the parsed state's grid and per-cell slot
lists in terms of the original state. -/

theorem hasConn_mirror (gs : GameState) (hwf : SerialWF gs) (c d : ℤ)
    (h0 : 0 ≤ c) (hc : c < gs.w * gs.h) (hd0 : 0 ≤ d) (hd8 : d < 8)
    (hcd : hasConn gs c d) :
    0 ≤ cellStep gs.w c d ∧ cellStep gs.w c d < gs.w * gs.h ∧
    hasConn gs (cellStep gs.w c d) (oppDir d) := by
  have hslot : ∃ s : ℤ, (s = 0 ∨ s = 1) ∧ gs.conn_pairs (2 * c + s) = d + 48 := by
    unfold hasConn at hcd
    rcases hcd with h | h
    · refine ⟨0, Or.inl rfl, ?_⟩
      rw [show (2 * c + (0 : ℤ)) = 2 * c from by ring]
      exact h
    · exact ⟨1, Or.inr rfl, h⟩
  obtain ⟨s, hs01, hv⟩ := hslot
  obtain ⟨_, _, _, hslots⟩ := serialWF_cell gs hwf c h0 hc
  have hwfslot := hslots s (by omega) (by omega)
  rw [hv] at hwfslot
  rcases hwfslot with h56 | ⟨_, _, ham, hconn⟩
  · exfalso
    omega
  have hsimp : d + 48 - 48 = d := by ring
  rw [hsimp] at ham hconn
  have heqm : attemptMove c (knightMoves d) gs.w gs.h = cellStep gs.w c d :=
    attemptMove_eq_of_nonneg _ _ _ _ ham
  refine ⟨?_, ?_, hconn⟩
  · rw [← heqm]
    exact ham
  · rw [← heqm]
    exact attemptMove_lt_size _ _ _ _ ham

theorem parsedOf_facts (gs : GameState) (hwf : SerialWF gs) :
    (∀ j : ℤ, 0 ≤ j → j < gs.w * gs.h → (parsedOf gs).grid j = gs.grid j) ∧
    (∀ c : ℤ, 0 ≤ c → c < gs.w * gs.h →
      slotsList (parsedOf gs).conn_pairs c = insList gs.w (emitList gs) c) := by
  have hw : 0 < gs.w := hwf.1
  have hh : 0 < gs.h := hwf.2.1
  have hwh : 0 < gs.w * gs.h := mul_pos hw hh
  obtain ⟨r1, r2, r3, r4, r5⟩ := newGameCells_run (gridChars gs)
    (triplesChars (emitList gs)) 0 (initGameState gs.w gs.h)
  have hparsed : parsedOf gs
      = (emitList gs).foldl applyTriple
          { (newGameCells (gridChars gs).length
              (gridChars gs ++ triplesChars (emitList gs)) 0 (initGameState gs.w gs.h)).1 with
            ncells := gs.w * gs.h
              - (newGameCells (gridChars gs).length
                  (gridChars gs ++ triplesChars (emitList gs)) 0
                  (initGameState gs.w gs.h)).1.nunvisited } := by
    unfold parsedOf newGame
    dsimp only
    rw [newGameDesc_decomp,
      show (gs.w * gs.h).toNat = (gridChars gs).length from (gridChars_length gs).symm, r1]
    exact parseConns_triples (emitList gs) _ _ (emit_bounds gs hwf)
      (by have := triplesChars_length_ge (emitList gs); omega)
  set read := newGameCells (gridChars gs).length
    (gridChars gs ++ triplesChars (emitList gs)) 0 (initGameState gs.w gs.h) with hread
  set g1 : GameState := { read.1 with ncells := gs.w * gs.h - read.1.nunvisited } with hg1
  have hg1grid : g1.grid = read.1.grid := by rw [hg1]
  have hg1w : g1.w = gs.w := by
    rw [hg1]
    exact r2
  have hg1cp : g1.conn_pairs = (initGameState gs.w gs.h).conn_pairs := by
    rw [hg1]
    exact r4
  constructor
  · intro j h0 hj
    rw [hparsed, foldl_applyTriple_grid, hg1grid, r5 j]
    have hcast : (((gridChars gs).length : ℕ) : ℤ) = gs.w * gs.h := by
      rw [gridChars_length]
      omega
    rw [if_pos (by omega), gridChars_getD gs j h0 hj]
    obtain ⟨⟨hg0, hg3⟩, _, _, _⟩ := serialWF_cell gs hwf j h0 hj
    rw [digitChar_toNat (gs.grid j).toNat (by omega)]
    omega
  · intro c h0 hc
    have hsl : slotsList g1.conn_pairs c = [] := by
      rw [hg1cp]
      unfold initGameState slotsList
      simp
    have hlf : leftFilled g1.conn_pairs c := by
      rw [hg1cp]
      intro _
      rfl
    have hbounds : ∀ t ∈ emitList gs, (0 ≤ t.1 ∧ t.1 < 8) ∧ cellStep g1.w t.2 t.1 ≠ t.2 := by
      rw [hg1w]
      exact emit_step_ne gs hwf
    have hcap : (slotsList g1.conn_pairs c).length + (insList g1.w (emitList gs) c).length ≤ 2 := by
      rw [hsl, hg1w]
      have := insList_length_le gs hwf c h0 hc
      simpa using this
    obtain ⟨hs, _⟩ := foldl_applyTriple_slots (emitList gs) g1 c hbounds hcap hlf
    rw [hparsed, hs, hsl, hg1w]
    simp

/-- **C7**: for a serialisable generated state, `new_game` applied to the
description `new_game_desc` prints reproduces the grid array on every
cell, shows exactly the same revealed connections on every in-range cell
and direction, and every reconstructed connection is present at both of
its endpoint cells in mutually opposite directions. -/
theorem new_game_desc_round_trip (gs : GameState) (hwf : SerialWF gs) :
    (∀ j : ℤ, 0 ≤ j → j < gs.w * gs.h → (parsedOf gs).grid j = gs.grid j) ∧
    (∀ c d : ℤ, 0 ≤ c → c < gs.w * gs.h → 0 ≤ d → d < 8 →
      (hasConn (parsedOf gs) c d ↔ hasConn gs c d)) ∧
    (∀ c d : ℤ, 0 ≤ c → c < gs.w * gs.h → 0 ≤ d → d < 8 → hasConn (parsedOf gs) c d →
      0 ≤ cellStep gs.w c d ∧ cellStep gs.w c d < gs.w * gs.h ∧
      hasConn (parsedOf gs) (cellStep gs.w c d) (oppDir d)) := by
  obtain ⟨hgrid, hslots⟩ := parsedOf_facts gs hwf
  have hconn_iff : ∀ c d : ℤ, 0 ≤ c → c < gs.w * gs.h → 0 ≤ d → d < 8 →
      (hasConn (parsedOf gs) c d ↔ hasConn gs c d) := by
    intro c d h0 hc hd0 hd8
    have h1 : hasConn (parsedOf gs) c d ↔ d ∈ slotsList (parsedOf gs).conn_pairs c := by
      unfold hasConn
      exact (mem_slotsList _ _ _ (by omega)).symm
    have h2 : hasConn gs c d ↔ d ∈ slotsList gs.conn_pairs c := by
      unfold hasConn
      exact (mem_slotsList _ _ _ (by omega)).symm
    rw [h1, h2, hslots c h0 hc]
    exact ⟨fun h => insList_subset gs hwf c d h,
      fun h => slotsList_subset gs hwf c h0 hc d h⟩
  refine ⟨hgrid, hconn_iff, ?_⟩
  intro c d h0 hc hd0 hd8 hcd
  have hgs : hasConn gs c d := (hconn_iff c d h0 hc hd0 hd8).1 hcd
  obtain ⟨hm0, hmwh, hmirror⟩ := hasConn_mirror gs hwf c d h0 hc hd0 hd8 hgs
  have hoD := oppDir_range d hd0 hd8
  refine ⟨hm0, hmwh, ?_⟩
  exact (hconn_iff (cellStep gs.w c d) (oppDir d) hm0 hmwh hoD.1 hoD.2).2 hmirror

/-- Witness for `new_game_desc_round_trip`: a concrete 6×6 state with one
revealed connection between cells 0 and 13 (directions 3 and 7). -/
theorem new_game_desc_round_trip_witness :
    SerialWF kgSerState ∧
    (hasConn (parsedOf kgSerState) 0 3 ↔ hasConn kgSerState 0 3) ∧
    hasConn (parsedOf kgSerState) 13 7 := by
  have h := new_game_desc_round_trip kgSerState (by decide)
  have hpc : hasConn (parsedOf kgSerState) 0 3 :=
    (h.2.1 0 3 (by decide) (by decide) (by decide) (by decide)).2 (by decide)
  have h3 := h.2.2 0 3 (by decide) (by decide) (by decide) (by decide) hpc
  have he : cellStep kgSerState.w 0 3 = 13 := by decide
  have ho : oppDir 3 = 7 := by decide
  rw [he, ho] at h3
  exact ⟨by decide, h.2.1 0 3 (by decide) (by decide) (by decide) (by decide), h3.2.2⟩

/-! The degree scan of `hamilton_check_result`: on success every vertex's
recorded slot pair lists exactly its active incidences, in scan order. -/

theorem insOneVD (vd : ℕ → ℕ) (ve : ℕ → ℕ × ℕ) (u idx : ℕ) (hu : vd u ≤ 1) :
    ∀ v : ℕ, vd v ≤ 2 →
      updN vd u (vd u + 1) v ≤ 2 ∧
      pairList (updN vd u (vd u + 1) v)
          (updN ve u (if vd u = 0 then (idx, (ve u).2) else ((ve u).1, idx)) v)
        = pairList (vd v) (ve v) ++ (if v = u then [idx] else []) := by
  intro v hv
  by_cases hvu : v = u
  · subst hvu
    rw [if_pos rfl]
    unfold updN
    rw [if_pos rfl, if_pos rfl]
    rcases Nat.lt_or_ge (vd v) 1 with h0 | h1
    · have h00 : vd v = 0 := by omega
      rw [h00]
      exact ⟨by omega, by simp [pairList]⟩
    · have h11 : vd v = 1 := by omega
      rw [h11]
      exact ⟨by omega, by simp [pairList]⟩
  · rw [if_neg hvu]
    unfold updN
    rw [if_neg hvu, if_neg hvu]
    exact ⟨hv, by simp⟩

theorem incList_cons (v idx : ℕ) (e : HEdge) (es : List HEdge) :
    incList v idx (e :: es)
      = ((if e.active = true ∧ v = e.a then [idx] else []) ++
          (if e.active = true ∧ v = e.b then [idx] else [])) ++ incList v (idx + 1) es := rfl

theorem buildVedges_run : ∀ (es : List HEdge) (idx : ℕ) (vd : ℕ → ℕ) (ve : ℕ → ℕ × ℕ)
    (res : (ℕ → ℕ) × (ℕ → ℕ × ℕ)),
    buildVedges idx es vd ve = some res →
    ∀ v : ℕ, vd v ≤ 2 →
      res.1 v ≤ 2 ∧
      pairList (res.1 v) (res.2 v) = pairList (vd v) (ve v) ++ incList v idx es := by
  intro es
  induction es with
  | nil =>
    intro idx vd ve res h v hv
    simp only [buildVedges] at h
    rw [Option.some.injEq] at h
    subst h
    exact ⟨hv, by simp [incList]⟩
  | cons e es ih =>
    intro idx vd ve res h v hv
    simp only [buildVedges] at h
    by_cases hact : e.active = true
    · rw [if_pos hact] at h
      by_cases hga : 2 ≤ vd e.a
      · rw [if_pos hga] at h
        exact absurd h (by simp)
      rw [if_neg hga] at h
      by_cases hgb : 2 ≤ updN vd e.a (vd e.a + 1) e.b
      · rw [if_pos hgb] at h
        exact absurd h (by simp)
      rw [if_neg hgb] at h
      obtain ⟨hv1, hp1⟩ := insOneVD vd ve e.a idx (by omega) v hv
      obtain ⟨hv2, hp2⟩ := insOneVD
        (updN vd e.a (vd e.a + 1))
        (updN ve e.a (if vd e.a = 0 then (idx, (ve e.a).2) else ((ve e.a).1, idx)))
        e.b idx (by omega) v hv1
      obtain ⟨hv3, hp3⟩ := ih (idx + 1) _ _ res h v hv2
      refine ⟨hv3, ?_⟩
      rw [hp3, hp2, hp1, incList_cons]
      simp only [hact, true_and, List.append_assoc]
    · rw [if_neg hact] at h
      obtain ⟨hv3, hp3⟩ := ih (idx + 1) vd ve res h v hv
      refine ⟨hv3, ?_⟩
      have hact' : ¬ (e.active = true ∧ v = e.a) := fun hc => hact hc.1
      have hact'' : ¬ (e.active = true ∧ v = e.b) := fun hc => hact hc.1
      rw [hp3, incList_cons, if_neg hact', if_neg hact'']
      simp

theorem buildVedges_slots (es : List HEdge) (vd : ℕ → ℕ) (ve : ℕ → ℕ × ℕ)
    (h : buildVedges 0 es (fun _ => 0) (fun _ => (0, 0)) = some (vd, ve)) (v : ℕ) :
    vd v ≤ 2 ∧ pairList (vd v) (ve v) = incList v 0 es := by
  obtain ⟨h1, h2⟩ := buildVedges_run es 0 _ _ (vd, ve) h v (by omega)
  refine ⟨h1, ?_⟩
  rw [h2]
  simp [pairList]

theorem mem_incList : ∀ (es : List HEdge) (idx x v : ℕ),
    x ∈ incList v idx es ↔
      ∃ k : ℕ, k < es.length ∧ x = idx + k ∧
        (es.getD k ⟨0, 0, false⟩).active = true ∧
        (v = (es.getD k ⟨0, 0, false⟩).a ∨ v = (es.getD k ⟨0, 0, false⟩).b) := by
  intro es
  induction es with
  | nil =>
    intro idx x v
    simp [incList]
  | cons e es ih =>
    intro idx x v
    unfold incList
    rw [List.mem_append, List.mem_append, ih (idx + 1)]
    constructor
    · rintro ((h | h) | ⟨k, hk, hx, hact, hv⟩)
      · split_ifs at h with hc
        · simp only [List.mem_singleton] at h
          subst h
          exact ⟨0, by simp, by omega, by simpa using hc.1, Or.inl (by simpa using hc.2)⟩
        · simp at h
      · split_ifs at h with hc
        · simp only [List.mem_singleton] at h
          subst h
          exact ⟨0, by simp, by omega, by simpa using hc.1, Or.inr (by simpa using hc.2)⟩
        · simp at h
      · refine ⟨k + 1, by simpa using hk, by omega, ?_, ?_⟩
        · simpa [List.getD_cons_succ] using hact
        · simpa [List.getD_cons_succ] using hv
    · rintro ⟨k, hk, hx, hact, hv⟩
      cases k with
      | zero =>
        left
        simp only [List.getD_cons_zero] at hact hv
        rcases hv with hv | hv
        · left
          rw [if_pos ⟨hact, hv⟩]
          simp
          omega
        · right
          rw [if_pos ⟨hact, hv⟩]
          simp
          omega
      | succ k =>
        right
        refine ⟨k, by simpa using hk, by omega, ?_, ?_⟩
        · simpa [List.getD_cons_succ] using hact
        · simpa [List.getD_cons_succ] using hv

theorem count_incList : ∀ (es : List HEdge) (idx v x : ℕ),
    List.count x (incList v idx es)
      = if idx ≤ x ∧ x - idx < es.length then
          ((if (es.getD (x - idx) ⟨0, 0, false⟩).active = true ∧
              v = (es.getD (x - idx) ⟨0, 0, false⟩).a then 1 else 0) +
            (if (es.getD (x - idx) ⟨0, 0, false⟩).active = true ∧
              v = (es.getD (x - idx) ⟨0, 0, false⟩).b then 1 else 0))
        else 0 := by
  intro es
  induction es with
  | nil =>
    intro idx v x
    simp [incList]
  | cons e es ih =>
    intro idx v x
    unfold incList
    rw [List.count_append, List.count_append, ih (idx + 1)]
    by_cases hx : x = idx
    · subst hx
      have hc1 : ¬ (x + 1 ≤ x ∧ x - (x + 1) < es.length) := by omega
      rw [if_neg hc1]
      rw [if_pos (show x ≤ x ∧ x - x < (e :: es).length from by simp)]
      have hsub : x - x = 0 := by omega
      rw [hsub]
      simp only [List.getD_cons_zero]
      have cA : List.count x (if e.active = true ∧ v = e.a then [x] else [])
          = (if e.active = true ∧ v = e.a then 1 else 0) := by
        split_ifs <;> simp
      have cB : List.count x (if e.active = true ∧ v = e.b then [x] else [])
          = (if e.active = true ∧ v = e.b then 1 else 0) := by
        split_ifs <;> simp
      rw [cA, cB]
      omega
    · have hz1 : List.count x (if e.active = true ∧ v = e.a then [idx] else []) = 0 := by
        split_ifs <;> simp [List.count_singleton, hx]
      have hz2 : List.count x (if e.active = true ∧ v = e.b then [idx] else []) = 0 := by
        split_ifs <;> simp [List.count_singleton, hx]
      rw [hz1, hz2]
      have hlen : (e :: es).length = es.length + 1 := rfl
      by_cases hc : idx + 1 ≤ x ∧ x - (idx + 1) < es.length
      · rw [if_pos hc, if_pos (show idx ≤ x ∧ x - idx < (e :: es).length from by
          rw [hlen]
          omega)]
        have hsub : x - idx = (x - (idx + 1)) + 1 := by omega
        simp only [hsub, List.getD_cons_succ]
        omega
      · rw [if_neg hc, if_neg (show ¬ (idx ≤ x ∧ x - idx < (e :: es).length) from by
          rw [hlen]
          omega)]

/-! Walk-state algebra over a successful degree scan. -/

theorem hamGood_of_build (n : ℕ) (es : List HEdge) (vd : ℕ → ℕ) (ve : ℕ → ℕ × ℕ)
    (hb : buildVedges 0 es (fun _ => 0) (fun _ => (0, 0)) = some (vd, ve))
    (hdeg : ∀ v, v < n → vd v = 2) :
    hamGood n es ve := by
  intro v hv
  obtain ⟨_, hp⟩ := buildVedges_slots es vd ve hb v
  rw [hdeg v hv] at hp
  simpa [pairList] using hp

theorem slot_fact (n : ℕ) (es : List HEdge) (ve : ℕ → ℕ × ℕ) (hg : hamGood n es ve)
    (v e : ℕ) (hv : v < n) (he : e = (ve v).1 ∨ e = (ve v).2) :
    e < es.length ∧ (hamEdge es e).active = true ∧
      (v = (hamEdge es e).a ∨ v = (hamEdge es e).b) := by
  have hmem : e ∈ incList v 0 es := by
    rw [← hg v hv]
    rcases he with h | h <;> simp [h]
  rw [mem_incList] at hmem
  obtain ⟨k, hk, hek, hact, hv2⟩ := hmem
  have hke : k = e := by omega
  subst hke
  exact ⟨hk, hact, hv2⟩

theorem slot_complete (n : ℕ) (es : List HEdge) (ve : ℕ → ℕ × ℕ) (hg : hamGood n es ve)
    (v x : ℕ) (hv : v < n) (hx : x < es.length)
    (hact : (hamEdge es x).active = true)
    (hinc : v = (hamEdge es x).a ∨ v = (hamEdge es x).b) :
    x = (ve v).1 ∨ x = (ve v).2 := by
  have hmem : x ∈ incList v 0 es := by
    rw [mem_incList]
    exact ⟨x, hx, by omega, hact, hinc⟩
  rw [← hg v hv] at hmem
  simpa using hmem

theorem count_pair (s0 s1 x : ℕ) :
    List.count x [s0, s1] = (if s0 = x then 1 else 0) + (if s1 = x then 1 else 0) := by
  rcases eq_or_ne s0 x with h0 | h0 <;> rcases eq_or_ne s1 x with h1 | h1 <;>
    simp [h0, h1, List.count_cons]

theorem selfloop_of_slots_eq (n : ℕ) (es : List HEdge) (ve : ℕ → ℕ × ℕ)
    (hg : hamGood n es ve) (v : ℕ) (hv : v < n)
    (heq : (ve v).1 = (ve v).2) :
    (hamEdge es (ve v).1).a = v ∧ (hamEdge es (ve v).1).b = v := by
  have hcnt : List.count ((ve v).1) (incList v 0 es) = 2 := by
    rw [← hg v hv, ← heq, count_pair]
    simp
  rw [count_incList] at hcnt
  split_ifs at hcnt with hc ha hb hb
  · have hsub : (ve v).1 - 0 = (ve v).1 := by omega
    rw [hsub] at ha hb
    exact ⟨ha.2.symm, hb.2.symm⟩
  · omega
  · omega
  · omega

theorem slots_eq_of_selfloop (n : ℕ) (es : List HEdge) (ve : ℕ → ℕ × ℕ)
    (hg : hamGood n es ve) (v x : ℕ) (hv : v < n) (hx : x < es.length)
    (hact : (hamEdge es x).active = true)
    (ha : (hamEdge es x).a = v) (hb : (hamEdge es x).b = v) :
    (ve v).1 = x ∧ (ve v).2 = x := by
  have hcnt : List.count x (incList v 0 es) = 2 := by
    rw [count_incList, if_pos (show 0 ≤ x ∧ x - 0 < es.length from by omega)]
    have hsub : x - 0 = x := by omega
    rw [hsub, if_pos ⟨hact, ha.symm⟩, if_pos ⟨hact, hb.symm⟩]
  rw [← hg v hv, count_pair] at hcnt
  constructor <;> by_contra hq <;> rw [if_neg hq] at hcnt <;> split_ifs at hcnt <;> omega

theorem hamOther_mem (es : List HEdge) (e v : ℕ)
    (h : v = (hamEdge es e).a ∨ v = (hamEdge es e).b) :
    hamOther es e v = (hamEdge es e).a ∨ hamOther es e v = (hamEdge es e).b := by
  unfold hamOther
  rcases h with h | h
  · right
    omega
  · left
    omega

theorem hamOther_other (es : List HEdge) (e v : ℕ)
    (h : v = (hamEdge es e).a ∨ v = (hamEdge es e).b) :
    hamOther es e (hamOther es e v) = v := by
  unfold hamOther
  rcases h with h | h <;> omega

theorem hamTau_mem (ve : ℕ → ℕ × ℕ) (v e : ℕ) :
    hamTau ve v e = (ve v).1 ∨ hamTau ve v e = (ve v).2 := by
  unfold hamTau
  split_ifs <;> simp

theorem hamTau_hamTau (ve : ℕ → ℕ × ℕ) (v e : ℕ)
    (he : e = (ve v).1 ∨ e = (ve v).2) :
    hamTau ve v (hamTau ve v e) = e := by
  unfold hamTau
  rcases he with h | h <;> subst h
  · rw [if_pos rfl]
    by_cases hq : (ve v).1 = (ve v).2
    · rw [if_pos hq]
      omega
    · rw [if_neg hq]
  · by_cases hq : (ve v).1 = (ve v).2
    · rw [if_pos hq, if_pos hq]
    · rw [if_neg hq, if_pos rfl]

theorem hamEdge_lt_n (n : ℕ) (es : List HEdge) (hends : ∀ e ∈ es, e.a < n ∧ e.b < n)
    (x : ℕ) (hx : x < es.length) :
    (hamEdge es x).a < n ∧ (hamEdge es x).b < n := by
  have hmem : hamEdge es x ∈ es := by
    unfold hamEdge
    rw [List.getD_eq_getElem?_getD, List.getElem?_eq_getElem hx]
    exact List.getElem_mem hx
  exact hends _ hmem

theorem hamStep_ok (n : ℕ) (es : List HEdge) (ve : ℕ → ℕ × ℕ)
    (hg : hamGood n es ve) (hends : ∀ e ∈ es, e.a < n ∧ e.b < n)
    (st : ℕ × ℕ) (hst : hamStOK n ve st) :
    hamStOK n ve (hamStep es ve st) := by
  obtain ⟨hlen, hact, hinc⟩ := slot_fact n es ve hg st.1 st.2 hst.1 hst.2
  have hv2 := hamOther_mem es st.2 st.1 hinc
  have hlt := hamEdge_lt_n n es hends st.2 hlen
  constructor
  · show hamOther es st.2 st.1 < n
    rcases hv2 with h | h <;> rw [h]
    · exact hlt.1
    · exact hlt.2
  · exact hamTau_mem ve _ _

theorem arrival_slot (n : ℕ) (es : List HEdge) (ve : ℕ → ℕ × ℕ)
    (hg : hamGood n es ve) (hends : ∀ e ∈ es, e.a < n ∧ e.b < n)
    (st : ℕ × ℕ) (hst : hamStOK n ve st) :
    st.2 = (ve (hamOther es st.2 st.1)).1 ∨ st.2 = (ve (hamOther es st.2 st.1)).2 := by
  obtain ⟨hlen, hact, hinc⟩ := slot_fact n es ve hg st.1 st.2 hst.1 hst.2
  have hv2mem := hamOther_mem es st.2 st.1 hinc
  have hlt := hamEdge_lt_n n es hends st.2 hlen
  have hv2n : hamOther es st.2 st.1 < n := by
    rcases hv2mem with h | h <;> rw [h]
    · exact hlt.1
    · exact hlt.2
  exact slot_complete n es ve hg _ st.2 hv2n hlen hact hv2mem

theorem hamBack_hamStep_eq (n : ℕ) (es : List HEdge) (ve : ℕ → ℕ × ℕ)
    (hg : hamGood n es ve) (hends : ∀ e ∈ es, e.a < n ∧ e.b < n)
    (st : ℕ × ℕ) (hst : hamStOK n ve st) :
    hamBack es ve (hamStep es ve st) = st := by
  have harr := arrival_slot n es ve hg hends st hst
  obtain ⟨hlen, hact, hinc⟩ := slot_fact n es ve hg st.1 st.2 hst.1 hst.2
  show (hamOther es (hamTau ve (hamOther es st.2 st.1)
          (hamTau ve (hamOther es st.2 st.1) st.2)) (hamOther es st.2 st.1),
        hamTau ve (hamOther es st.2 st.1) (hamTau ve (hamOther es st.2 st.1) st.2)) = st
  rw [hamTau_hamTau _ _ _ harr, hamOther_other es st.2 st.1 hinc]

theorem hamFlip_ok (n : ℕ) (ve : ℕ → ℕ × ℕ) (st : ℕ × ℕ) (hst : hamStOK n ve st) :
    hamStOK n ve (hamFlip ve st) :=
  ⟨hst.1, hamTau_mem ve st.1 st.2⟩

theorem hamFlip_hamFlip (ve : ℕ → ℕ × ℕ) (st : ℕ × ℕ)
    (he : st.2 = (ve st.1).1 ∨ st.2 = (ve st.1).2) :
    hamFlip ve (hamFlip ve st) = st := by
  show (st.1, hamTau ve st.1 (hamTau ve st.1 st.2)) = st
  rw [hamTau_hamTau ve st.1 st.2 he]

theorem hamBack_hamFlip (n : ℕ) (es : List HEdge) (ve : ℕ → ℕ × ℕ)
    (hg : hamGood n es ve) (hends : ∀ e ∈ es, e.a < n ∧ e.b < n)
    (st : ℕ × ℕ) (hst : hamStOK n ve st) :
    hamBack es ve (hamFlip ve st) = hamFlip ve (hamStep es ve st) := by
  have harr := arrival_slot n es ve hg hends st hst
  show (hamOther es (hamTau ve st.1 (hamTau ve st.1 st.2)) st.1,
        hamTau ve st.1 (hamTau ve st.1 st.2))
      = (hamOther es st.2 st.1,
          hamTau ve (hamOther es st.2 st.1) (hamTau ve (hamOther es st.2 st.1) st.2))
  rw [hamTau_hamTau ve st.1 st.2 hst.2, hamTau_hamTau _ _ _ harr]

theorem hamStOK_iter (n : ℕ) (es : List HEdge) (ve : ℕ → ℕ × ℕ)
    (hg : hamGood n es ve) (hends : ∀ e ∈ es, e.a < n ∧ e.b < n)
    (st : ℕ × ℕ) (hst : hamStOK n ve st) :
    ∀ k, hamStOK n ve ((hamStep es ve)^[k] st) := by
  intro k
  induction k with
  | zero => simpa using hst
  | succ k ih =>
    rw [Function.iterate_succ_apply']
    exact hamStep_ok n es ve hg hends _ ih

theorem iter_back (n : ℕ) (es : List HEdge) (ve : ℕ → ℕ × ℕ)
    (hg : hamGood n es ve) (hends : ∀ e ∈ es, e.a < n ∧ e.b < n)
    (st : ℕ × ℕ) (hst : hamStOK n ve st) (k : ℕ) :
    hamBack es ve ((hamStep es ve)^[k + 1] st) = (hamStep es ve)^[k] st := by
  rw [Function.iterate_succ_apply']
  exact hamBack_hamStep_eq n es ve hg hends _ (hamStOK_iter n es ve hg hends st hst k)

/-! The traced walk is reversible, so it cannot repeat a state, and a
repeated vertex forces the walk into a reversal or a fixed point, both of
which the loop's start-revisit checks reject. -/

theorem eq_prop_down (n : ℕ) (es : List HEdge) (ve : ℕ → ℕ × ℕ)
    (hg : hamGood n es ve) (hends : ∀ e ∈ es, e.a < n ∧ e.b < n)
    (st0 : ℕ × ℕ) (hst0 : hamStOK n ve st0) (j l : ℕ) (hjl : j ≤ l)
    (heq : (hamStep es ve)^[j] st0 = (hamStep es ve)^[l] st0) :
    ∀ m, m ≤ j → (hamStep es ve)^[j - m] st0 = (hamStep es ve)^[l - m] st0 := by
  intro m
  induction m with
  | zero => intro _; simpa using heq
  | succ m ih =>
    intro hm
    have hprev := ih (by omega)
    have hj : j - m = (j - (m + 1)) + 1 := by omega
    have hl : l - m = (l - (m + 1)) + 1 := by omega
    rw [hj, hl] at hprev
    have hh := congrArg (hamBack es ve) hprev
    rwa [iter_back n es ve hg hends st0 hst0, iter_back n es ve hg hends st0 hst0] at hh

theorem flip_prop_down (n : ℕ) (es : List HEdge) (ve : ℕ → ℕ × ℕ)
    (hg : hamGood n es ve) (hends : ∀ e ∈ es, e.a < n ∧ e.b < n)
    (st0 : ℕ × ℕ) (hst0 : hamStOK n ve st0) (j l : ℕ)
    (heq : (hamStep es ve)^[l] st0 = hamFlip ve ((hamStep es ve)^[j] st0)) :
    ∀ m, j + m ≤ l →
      (hamStep es ve)^[l - m] st0 = hamFlip ve ((hamStep es ve)^[j + m] st0) := by
  intro m
  induction m with
  | zero => intro _; simpa using heq
  | succ m ih =>
    intro hm
    have hprev := ih (by omega)
    have hl : l - m = (l - (m + 1)) + 1 := by omega
    rw [hl] at hprev
    have hh := congrArg (hamBack es ve) hprev
    rw [iter_back n es ve hg hends st0 hst0,
      hamBack_hamFlip n es ve hg hends _
        (hamStOK_iter n es ve hg hends st0 hst0 (j + m))] at hh
    have hidx : j + (m + 1) = (j + m) + 1 := by omega
    rw [hidx, Function.iterate_succ_apply']
    exact hh

theorem selfloop_fixed (n : ℕ) (es : List HEdge) (ve : ℕ → ℕ × ℕ)
    (hg : hamGood n es ve) (hends : ∀ e ∈ es, e.a < n ∧ e.b < n)
    (st : ℕ × ℕ) (hst : hamStOK n ve st)
    (hself : hamOther es st.2 st.1 = st.1) :
    hamStep es ve st = st := by
  obtain ⟨hlen, hact, hinc⟩ := slot_fact n es ve hg st.1 st.2 hst.1 hst.2
  have hab : (hamEdge es st.2).a = st.1 ∧ (hamEdge es st.2).b = st.1 := by
    unfold hamOther at hself
    rcases hinc with h | h
    · constructor <;> omega
    · constructor <;> omega
  obtain ⟨hsl1, hsl2⟩ := slots_eq_of_selfloop n es ve hg st.1 st.2 hst.1 hlen hact hab.1 hab.2
  show (hamOther es st.2 st.1, hamTau ve (hamOther es st.2 st.1) st.2) = st
  rw [hself]
  unfold hamTau
  rw [if_pos hsl1, hsl2]

theorem flip_fixed_step (n : ℕ) (es : List HEdge) (ve : ℕ → ℕ × ℕ)
    (hg : hamGood n es ve) (hends : ∀ e ∈ es, e.a < n ∧ e.b < n)
    (st : ℕ × ℕ) (hst : hamStOK n ve st) (hRfix : hamFlip ve st = st) :
    hamStep es ve st = st := by
  have htau : hamTau ve st.1 st.2 = st.2 := congrArg Prod.snd hRfix
  have hslots : (ve st.1).1 = st.2 ∧ (ve st.1).2 = st.2 := by
    unfold hamTau at htau
    by_cases hq : (ve st.1).1 = st.2
    · rw [if_pos hq] at htau
      exact ⟨hq, htau⟩
    · rw [if_neg hq] at htau
      exact absurd htau hq
  have heq2 : (ve st.1).1 = (ve st.1).2 := by rw [hslots.1, hslots.2]
  obtain ⟨ha, hb⟩ := selfloop_of_slots_eq n es ve hg st.1 hst.1 heq2
  rw [hslots.1] at ha hb
  have hself : hamOther es st.2 st.1 = st.1 := by
    unfold hamOther
    omega
  exact selfloop_fixed n es ve hg hends st hst hself

theorem step_flip_fixed (n : ℕ) (es : List HEdge) (ve : ℕ → ℕ × ℕ)
    (hg : hamGood n es ve) (hends : ∀ e ∈ es, e.a < n ∧ e.b < n)
    (st : ℕ × ℕ) (hst : hamStOK n ve st)
    (heq : hamStep es ve st = hamFlip ve st) :
    hamStep es ve st = st := by
  have hv : hamOther es st.2 st.1 = st.1 := congrArg Prod.fst heq
  exact selfloop_fixed n es ve hg hends st hst hv

theorem walk_vertices_nodup (n : ℕ) (es : List HEdge) (ve : ℕ → ℕ × ℕ)
    (hg : hamGood n es ve) (hends : ∀ e ∈ es, e.a < n ∧ e.b < n)
    (st0 : ℕ × ℕ) (hst0 : hamStOK n ve st0)
    (hne : ∀ i, 1 ≤ i → i < n → ((hamStep es ve)^[i] st0).1 ≠ st0.1)
    (hret : ((hamStep es ve)^[n] st0).1 = st0.1) :
    ∀ j l, j < l → l < n →
      ((hamStep es ve)^[j] st0).1 ≠ ((hamStep es ve)^[l] st0).1 := by
  intro j l hjl hl hvv
  have hstj := hamStOK_iter n es ve hg hends st0 hst0 j
  have hstl := hamStOK_iter n es ve hg hends st0 hst0 l
  -- the stuck-at-a-fixed-point ending, shared by both parity cases
  have finish : ∀ m : ℕ, m + 1 < n →
      hamStep es ve ((hamStep es ve)^[m] st0) = (hamStep es ve)^[m] st0 → False := by
    intro m hmn hfix
    have hall : ∀ k, (hamStep es ve)^[k] ((hamStep es ve)^[m] st0)
        = (hamStep es ve)^[m] st0 := fun k => Function.iterate_fixed hfix k
    have hn : (hamStep es ve)^[n] st0 = (hamStep es ve)^[m] st0 := by
      rw [show n = (n - m) + m from by omega, Function.iterate_add_apply]
      exact hall (n - m)
    have hm1 : (hamStep es ve)^[m + 1] st0 = (hamStep es ve)^[m] st0 := by
      rw [Function.iterate_succ_apply']
      exact hfix
    have hstart : ((hamStep es ve)^[m] st0).1 = st0.1 := by
      rw [← hn]
      exact hret
    refine hne (m + 1) (by omega) hmn ?_
    rw [hm1, hstart]
  by_cases hee : ((hamStep es ve)^[j] st0).2 = ((hamStep es ve)^[l] st0).2
  · have hstates : (hamStep es ve)^[j] st0 = (hamStep es ve)^[l] st0 :=
      Prod.ext hvv hee
    have h0 := eq_prop_down n es ve hg hends st0 hst0 j l (by omega) hstates j
      (by omega)
    have hv0 : ((hamStep es ve)^[l - j] st0).1 = st0.1 := by
      rw [← h0]
      simp
    exact hne (l - j) (by omega) (by omega) hv0
  · have hflip : (hamStep es ve)^[l] st0 = hamFlip ve ((hamStep es ve)^[j] st0) := by
      apply Prod.ext
      · exact hvv.symm
      · show ((hamStep es ve)^[l] st0).2
            = hamTau ve ((hamStep es ve)^[j] st0).1 ((hamStep es ve)^[j] st0).2
        have hl2 := hstl.2
        rw [← hvv] at hl2
        unfold hamTau
        rcases hstj.2 with h1 | h1 <;> rcases hl2 with h2 | h2
        · exact absurd (h1.trans h2.symm) hee
        · rw [if_pos h1.symm]
          exact h2
        · by_cases hq : (ve ((hamStep es ve)^[j] st0).1).1
              = (ve ((hamStep es ve)^[j] st0).1).2
          · exact absurd (h1.trans (hq.symm.trans h2.symm)) hee
          · rw [if_neg (fun hc => hq (hc.trans h1))]
            exact h2
        · exact absurd (h1.trans h2.symm) hee
    rcases Nat.even_or_odd (l - j) with ⟨i, hi⟩ | ⟨i, hi⟩
    · have hmid := flip_prop_down n es ve hg hends st0 hst0 j l hflip i (by omega)
      have hli : l - i = j + i := by omega
      rw [hli] at hmid
      have hfix := flip_fixed_step n es ve hg hends _
        (hamStOK_iter n es ve hg hends st0 hst0 (j + i)) hmid.symm
      exact finish (j + i) (by omega) hfix
    · have hmid := flip_prop_down n es ve hg hends st0 hst0 j l hflip i (by omega)
      have hli : l - i = (j + i) + 1 := by omega
      rw [hli, Function.iterate_succ_apply'] at hmid
      have hfix := step_flip_fixed n es ve hg hends _
        (hamStOK_iter n es ve hg hends st0 hst0 (j + i)) hmid
      exact finish (j + i) (by omega) hfix

/-! The tracing loop as an iteration of `hamStep`. -/

theorem traceLoop_some (start : ℕ) (isPath : Bool) (es : List HEdge) (ve : ℕ → ℕ × ℕ) :
    ∀ (k : ℕ) (st : ℕ × ℕ) (out : List ℕ) (r : ℕ × List ℕ),
    traceLoop start isPath es ve k false st.1 st.2 out = some r →
    (∀ i, i < k → ((hamStep es ve)^[i] st).1 ≠ start) ∧
    r.1 = ((hamStep es ve)^[k] st).1 ∧
    r.2 = out ++ (List.range k).map (fun i => ((hamStep es ve)^[i] st).1) := by
  intro k
  induction k with
  | zero =>
    intro st out r h
    simp only [traceLoop] at h
    rw [Option.some.injEq] at h
    subst h
    refine ⟨by omega, by simp, by simp⟩
  | succ k ih =>
    intro st out r h
    simp only [traceLoop] at h
    by_cases hs : st.1 = start
    · rw [if_pos ⟨trivial, hs⟩] at h
      exact absurd h (by simp)
    · rw [if_neg (by simp [hs])] at h
      rw [if_neg (fun hc : isPath = true ∧ false = true => by simp at hc)] at h
      obtain ⟨hne', hr1, hr2⟩ := ih (hamStep es ve st) (out ++ [st.1]) r h
      refine ⟨?_, ?_, ?_⟩
      · intro i hik
        cases i with
        | zero => simpa using hs
        | succ i =>
          rw [Function.iterate_succ_apply]
          exact hne' i (by omega)
      · rw [hr1, Function.iterate_succ_apply]
      · rw [hr2, List.range_succ_eq_map, List.map_cons, List.map_map]
        simp [Function.iterate_zero_apply, Function.comp, Nat.succ_eq_add_one,
          Function.iterate_succ_apply, List.append_assoc]

theorem checkResult_spec (n start : ℕ) (isPath : Bool) (es : List HEdge) (out : List ℕ)
    (hn : 0 < n)
    (h : hamiltonCheckResult n start isPath es = some out) :
    ∃ ve : ℕ → ℕ × ℕ, hamGood n es ve ∧
      (∀ i, 1 ≤ i → i < n →
        ((hamStep es ve)^[i] (start, (ve start).1)).1 ≠ start) ∧
      ((hamStep es ve)^[n] (start, (ve start).1)).1 = start ∧
      out = (if isPath then [] else [start])
        ++ (List.range (n - 1)).map
            (fun i => ((hamStep es ve)^[i + 1] (start, (ve start).1)).1) := by
  unfold hamiltonCheckResult at h
  cases hb : buildVedges 0 es (fun _ => 0) (fun _ => (0, 0)) with
  | none =>
    rw [hb] at h
    exact absurd h (by simp)
  | some p =>
    obtain ⟨vd, ve⟩ := p
    rw [hb] at h
    dsimp only at h
    by_cases hall : (List.range n).all (fun i => decide (vd i = 2)) = true
    · rw [if_pos hall] at h
      cases ht : traceLoop start isPath es ve n true start (ve start).1 [] with
      | none =>
        rw [ht] at h
        exact absurd h (by simp)
      | some q =>
        obtain ⟨vfin, out0⟩ := q
        rw [ht] at h
        dsimp only at h
        by_cases hfin : vfin = start
        · rw [if_pos hfin, Option.some.injEq] at h
          subst h
          -- unfold the first iteration of the trace
          obtain ⟨m, rfl⟩ : ∃ m, n = m + 1 := ⟨n - 1, by omega⟩
          simp only [traceLoop] at ht
          rw [if_neg (by simp)] at ht
          obtain ⟨hne', hr1, hr2⟩ := traceLoop_some start isPath es ve m
            (hamStep es ve (start, (ve start).1)) _ (vfin, out0) ht
          have hdeg : ∀ v, v < m + 1 → vd v = 2 := by
            simp only [List.all_eq_true, decide_eq_true_eq, List.mem_range] at hall
            exact fun v hv => hall v hv
          refine ⟨ve, hamGood_of_build (m + 1) es vd ve hb hdeg, ?_, ?_, ?_⟩
          · intro i h1 hi
            obtain ⟨i', rfl⟩ : ∃ i', i = i' + 1 := ⟨i - 1, by omega⟩
            rw [Function.iterate_succ_apply]
            exact hne' i' (by omega)
          · rw [Function.iterate_succ_apply]
            rw [← hr1]
            exact hfin
          · refine Eq.trans hr2 ?_
            by_cases hp : isPath = true <;>
              simp [hp, Function.iterate_succ_apply]
        · rw [if_neg hfin] at h
          exact absurd h (by simp)
    · rw [if_neg (by simpa using hall)] at h
      exact absurd h (by simp)

theorem hamEdge_mem (es : List HEdge) (x : ℕ) (hx : x < es.length) :
    hamEdge es x ∈ es := by
  unfold hamEdge
  rw [List.getD_eq_getElem?_getD, List.getElem?_eq_getElem hx]
  exact List.getElem_mem hx

theorem joined_symm (es : List HEdge) (u v : ℕ) (h : joined es u v) : joined es v u := by
  obtain ⟨e, he, h⟩ := h
  exact ⟨e, he, h.symm⟩

theorem walk_adj (n : ℕ) (es : List HEdge) (ve : ℕ → ℕ × ℕ)
    (hg : hamGood n es ve) (hends : ∀ e ∈ es, e.a < n ∧ e.b < n)
    (st0 : ℕ × ℕ) (hst0 : hamStOK n ve st0) (i : ℕ) :
    joined es ((hamStep es ve)^[i] st0).1 ((hamStep es ve)^[i + 1] st0).1 := by
  have hst := hamStOK_iter n es ve hg hends st0 hst0 i
  set st := (hamStep es ve)^[i] st0 with hstdef
  obtain ⟨hlen, hact, hinc⟩ := slot_fact n es ve hg st.1 st.2 hst.1 hst.2
  have hmem : hamEdge es st.2 ∈ es := hamEdge_mem es st.2 hlen
  have hnext : ((hamStep es ve)^[i + 1] st0).1 = hamOther es st.2 st.1 := by
    rw [Function.iterate_succ_apply', ← hstdef]
    rfl
  rw [hnext]
  refine ⟨hamEdge es st.2, hmem, ?_⟩
  unfold hamOther
  rcases hinc with h | h
  · left
    exact ⟨h.symm, by omega⟩
  · right
    exact ⟨by omega, h.symm⟩

theorem walk_map_nodup (n : ℕ) (es : List HEdge) (ve : ℕ → ℕ × ℕ)
    (hg : hamGood n es ve) (hends : ∀ e ∈ es, e.a < n ∧ e.b < n)
    (st0 : ℕ × ℕ) (hst0 : hamStOK n ve st0)
    (hne : ∀ i, 1 ≤ i → i < n → ((hamStep es ve)^[i] st0).1 ≠ st0.1)
    (hret : ((hamStep es ve)^[n] st0).1 = st0.1) :
    ((List.range n).map (fun i => ((hamStep es ve)^[i] st0).1)).Nodup := by
  have hinj := walk_vertices_nodup n es ve hg hends st0 hst0 hne hret
  refine List.Nodup.map_on ?_ (List.nodup_range _)
  intro x hx y hy hxy
  rw [List.mem_range] at hx hy
  by_contra hne'
  rcases lt_trichotomy x y with h | h | h
  · exact hinj x y h hy hxy
  · exact hne' h
  · exact hinj y x h hx hxy.symm

theorem walk_map_mem (n : ℕ) (es : List HEdge) (ve : ℕ → ℕ × ℕ)
    (hg : hamGood n es ve) (hends : ∀ e ∈ es, e.a < n ∧ e.b < n)
    (st0 : ℕ × ℕ) (hst0 : hamStOK n ve st0)
    (hne : ∀ i, 1 ≤ i → i < n → ((hamStep es ve)^[i] st0).1 ≠ st0.1)
    (hret : ((hamStep es ve)^[n] st0).1 = st0.1) :
    ∀ u, u ∈ (List.range n).map (fun i => ((hamStep es ve)^[i] st0).1) ↔ u < n := by
  have hnd := walk_map_nodup n es ve hg hends st0 hst0 hne hret
  have hlt : ∀ i, ((hamStep es ve)^[i] st0).1 < n :=
    fun i => (hamStOK_iter n es ve hg hends st0 hst0 i).1
  intro u
  constructor
  · intro hu
    rw [List.mem_map] at hu
    obtain ⟨i, hi, rfl⟩ := hu
    exact hlt i
  · intro hu
    set L := (List.range n).map (fun i => ((hamStep es ve)^[i] st0).1) with hL
    have hlen : L.length = n := by simp [hL]
    have hcard : L.toFinset.card = n := by rw [List.toFinset_card_of_nodup hnd, hlen]
    have hsub : L.toFinset ⊆ Finset.range n := by
      intro x hx
      rw [List.mem_toFinset] at hx
      rw [Finset.mem_range]
      rw [hL, List.mem_map] at hx
      obtain ⟨i, hi, rfl⟩ := hx
      exact hlt i
    have heq : L.toFinset = Finset.range n :=
      Finset.eq_of_subset_of_card_le hsub (by rw [hcard, Finset.card_range])
    have hu2 : u ∈ L.toFinset := by
      rw [heq, Finset.mem_range]
      exact hu
    rwa [List.mem_toFinset] at hu2

theorem walk_map_chain (n : ℕ) (es : List HEdge) (ve : ℕ → ℕ × ℕ)
    (hg : hamGood n es ve) (hends : ∀ e ∈ es, e.a < n ∧ e.b < n)
    (st0 : ℕ × ℕ) (hst0 : hamStOK n ve st0) :
    List.Chain' (joined es)
      ((List.range n).map (fun i => ((hamStep es ve)^[i] st0).1)) := by
  cases n with
  | zero => simp
  | succ m =>
    rw [List.chain'_map, List.chain'_range_succ]
    intro i him
    exact walk_adj (m + 1) es ve hg hends st0 hst0 i

theorem checkResult_out_facts (n start : ℕ) (isPath : Bool) (es : List HEdge)
    (out0 : List ℕ)
    (hn : 0 < n) (hstart : start < n) (hends : ∀ e ∈ es, e.a < n ∧ e.b < n)
    (hchk : hamiltonCheckResult n start isPath es = some out0) :
    ∃ t : List ℕ,
      out0 = (if isPath = true then t else start :: t) ∧
      t.length = n - 1 ∧
      (start :: t).Nodup ∧
      (∀ u, u ∈ start :: t ↔ u < n) ∧
      List.Chain' (joined es) (start :: t) ∧
      (∀ b, (start :: t).getLast? = some b → joined es b start) := by
  obtain ⟨ve, hg, hne, hret, hout0⟩ := checkResult_spec n start isPath es out0 hn hchk
  have hst0 : hamStOK n ve (start, (ve start).1) := ⟨hstart, Or.inl rfl⟩
  have hne' : ∀ i, 1 ≤ i → i < n →
      ((hamStep es ve)^[i] (start, (ve start).1)).1 ≠ (start, (ve start).1).1 := hne
  have hret' : ((hamStep es ve)^[n] (start, (ve start).1)).1
      = (start, (ve start).1).1 := hret
  have hL : (List.range n).map (fun i => ((hamStep es ve)^[i] (start, (ve start).1)).1)
      = start :: (List.range (n - 1)).map
          (fun i => ((hamStep es ve)^[i + 1] (start, (ve start).1)).1) := by
    obtain ⟨m, hm⟩ : ∃ m, n = m + 1 := ⟨n - 1, by omega⟩
    rw [hm, List.range_succ_eq_map, List.map_cons, List.map_map]
    simp [Function.comp, Nat.succ_eq_add_one]
  refine ⟨(List.range (n - 1)).map
      (fun i => ((hamStep es ve)^[i + 1] (start, (ve start).1)).1),
      ?_, ?_, ?_, ?_, ?_, ?_⟩
  · rw [hout0]
    by_cases hp : isPath = true <;> simp [hp]
  · simp
  · rw [← hL]
    exact walk_map_nodup n es ve hg hends _ hst0 hne' hret'
  · intro u
    rw [← hL]
    exact walk_map_mem n es ve hg hends _ hst0 hne' hret' u
  · rw [← hL]
    exact walk_map_chain n es ve hg hends _ hst0
  · have hlast : (start :: (List.range (n - 1)).map
        (fun i => ((hamStep es ve)^[i + 1] (start, (ve start).1)).1)).getLast?
        = some (((hamStep es ve)^[n - 1] (start, (ve start).1)).1) := by
      rw [← hL]
      obtain ⟨m, hm⟩ : ∃ m, n = m + 1 := ⟨n - 1, by omega⟩
      rw [hm, List.range_succ, List.map_append]
      simp
    intro b hb
    rw [hlast, Option.some.injEq] at hb
    have hj := walk_adj n es ve hg hends _ hst0 (n - 1)
    rw [show n - 1 + 1 = n from by omega, hret'] at hj
    rw [hb] at hj
    exact hj

/-- C5: whenever `hamilton_run` accepts a result (the converged subset passes
`hamilton_check_result` and the coin-flip reversal is applied or not), the
output vertex list has every vertex of the graph exactly once — excluding the
virtual start vertex in path mode — with no duplicates, every pair of
consecutive output vertices is joined by an edge of the input edge set, and in
cycle mode the wraparound pair (last, first) is joined as well; this holds for
both values of the reversal coin. -/
theorem hamilton_run_output_valid (n start : ℕ) (isPath rev : Bool)
    (es : List HEdge) (out : List ℕ)
    (hn : 0 < n) (hstart : start < n)
    (hends : ∀ e ∈ es, e.a < n ∧ e.b < n)
    (hrun : hamiltonRunOutput n start isPath es rev = some out) :
    (isPath = true → out.length + 1 = n) ∧
    (isPath = false → out.length = n) ∧
    out.Nodup ∧
    (∀ u, u ∈ out ↔ (u < n ∧ (isPath = true → u ≠ start))) ∧
    List.Chain' (joined es) out ∧
    (isPath = false → ∀ a b, out.head? = some a → out.getLast? = some b →
      joined es b a) := by
  unfold hamiltonRunOutput at hrun
  cases hchk : hamiltonCheckResult n start isPath es with
  | none =>
    rw [hchk] at hrun
    exact absurd hrun (by simp)
  | some out0 =>
    rw [hchk] at hrun
    dsimp only at hrun
    rw [Option.some.injEq] at hrun
    obtain ⟨t, hshape, hlenT, hnd, hmem, hchain, hwrap⟩ :=
      checkResult_out_facts n start isPath es out0 hn hstart hends hchk
    subst hshape
    have hstartt : start ∉ t := (List.nodup_cons.mp hnd).1
    have hndt : t.Nodup := (List.nodup_cons.mp hnd).2
    have hchaint : List.Chain' (joined es) t := (List.chain'_cons'.mp hchain).2
    by_cases hp : isPath = true
    · by_cases hr : rev = true
      · have hout : out = t.reverse := by
          rw [← hrun, hp, hr]
          simp [hamiltonReverse]
        subst hout
        refine ⟨?_, ?_, ?_, ?_, ?_, ?_⟩
        · intro _
          rw [List.length_reverse, hlenT]
          omega
        · intro hq
          rw [hp] at hq
          exact absurd hq (by simp)
        · exact List.nodup_reverse.mpr hndt
        · intro u
          rw [List.mem_reverse]
          constructor
          · intro hu
            exact ⟨(hmem u).mp (List.mem_cons_of_mem _ hu),
              fun _ hus => hstartt (hus ▸ hu)⟩
          · rintro ⟨hun, hnes⟩
            rcases List.mem_cons.mp ((hmem u).mpr hun) with h | h
            · exact absurd h (hnes hp)
            · exact h
        · exact List.chain'_reverse.mpr (hchaint.imp fun a b h => joined_symm es a b h)
        · intro hq
          rw [hp] at hq
          exact absurd hq (by simp)
      · rw [Bool.not_eq_true] at hr
        have hout : out = t := by
          rw [← hrun, hp, hr]
          simp
        subst hout
        refine ⟨?_, ?_, ?_, ?_, ?_, ?_⟩
        · intro _
          rw [hlenT]
          omega
        · intro hq
          rw [hp] at hq
          exact absurd hq (by simp)
        · exact hndt
        · intro u
          constructor
          · intro hu
            exact ⟨(hmem u).mp (List.mem_cons_of_mem _ hu),
              fun _ hus => hstartt (hus ▸ hu)⟩
          · rintro ⟨hun, hnes⟩
            rcases List.mem_cons.mp ((hmem u).mpr hun) with h | h
            · exact absurd h (hnes hp)
            · exact h
        · exact hchaint
        · intro hq
          rw [hp] at hq
          exact absurd hq (by simp)
    · rw [Bool.not_eq_true] at hp
      by_cases hr : rev = true
      · have hout : out = start :: t.reverse := by
          rw [← hrun, hp, hr]
          simp [hamiltonReverse]
        subst hout
        refine ⟨?_, ?_, ?_, ?_, ?_, ?_⟩
        · intro hq
          rw [hp] at hq
          exact absurd hq (by simp)
        · intro _
          rw [List.length_cons, List.length_reverse, hlenT]
          omega
        · exact List.nodup_cons.mpr
            ⟨by rw [List.mem_reverse]; exact hstartt, List.nodup_reverse.mpr hndt⟩
        · intro u
          constructor
          · intro hu
            have hu' : u ∈ start :: t := by
              rcases List.mem_cons.mp hu with h | h
              · simp [h]
              · exact List.mem_cons_of_mem _ (List.mem_reverse.mp h)
            exact ⟨(hmem u).mp hu', fun hq => absurd (hp.symm.trans hq) (by simp)⟩
          · rintro ⟨hun, _⟩
            rcases List.mem_cons.mp ((hmem u).mpr hun) with h | h
            · simp [h]
            · exact List.mem_cons_of_mem _ (List.mem_reverse.mpr h)
        · rw [List.chain'_cons']
          constructor
          · intro b hb
            rw [List.head?_reverse, Option.mem_def] at hb
            have hb2 : (start :: t).getLast? = some b := by
              cases t with
              | nil => simp at hb
              | cons x t' =>
                rw [List.getLast?_cons_cons]
                exact hb
            exact joined_symm es b start (hwrap b hb2)
          · exact List.chain'_reverse.mpr (hchaint.imp fun a b h => joined_symm es a b h)
        · intro _ a b ha hb
          have ha' : start = a := by
            rw [List.head?_cons, Option.some.injEq] at ha
            exact ha
          cases t with
          | nil =>
            have hb' : start = b := by simpa using hb
            have hws := hwrap start (by simp)
            rw [← ha', ← hb']
            exact hws
          | cons x t' =>
            have hb' : x = b := by
              rw [List.reverse_cons, ← List.cons_append, List.getLast?_concat,
                Option.some.injEq] at hb
              exact hb
            have hj : joined es start x := (List.chain'_cons.mp hchain).1
            rw [← ha', ← hb']
            exact joined_symm es start x hj
      · rw [Bool.not_eq_true] at hr
        have hout : out = start :: t := by
          rw [← hrun, hp, hr]
          simp
        subst hout
        refine ⟨?_, ?_, ?_, ?_, ?_, ?_⟩
        · intro hq
          rw [hp] at hq
          exact absurd hq (by simp)
        · intro _
          rw [List.length_cons, hlenT]
          omega
        · exact hnd
        · intro u
          constructor
          · intro hu
            exact ⟨(hmem u).mp hu, fun hq => absurd (hp.symm.trans hq) (by simp)⟩
          · rintro ⟨hun, _⟩
            exact (hmem u).mpr hun
        · exact hchain
        · intro _ a b ha hb
          have ha' : start = a := by
            rw [List.head?_cons, Option.some.injEq] at ha
            exact ha
          rw [← ha']
          exact hwrap b hb

theorem hamilton_run_output_valid_witness :
    (0 < 3 ∧ 0 < 3 ∧ (∀ e ∈ kgTriangle, e.a < 3 ∧ e.b < 3) ∧
        hamiltonRunOutput 3 0 false kgTriangle false = some [0, 1, 2]) ∧
      (((false : Bool) = true → ([0, 1, 2] : List ℕ).length + 1 = 3) ∧
        ((false : Bool) = false → ([0, 1, 2] : List ℕ).length = 3) ∧
        ([0, 1, 2] : List ℕ).Nodup ∧
        (∀ u, u ∈ ([0, 1, 2] : List ℕ) ↔ (u < 3 ∧ ((false : Bool) = true → u ≠ 0))) ∧
        List.Chain' (joined kgTriangle) [0, 1, 2] ∧
        ((false : Bool) = false → ∀ a b, ([0, 1, 2] : List ℕ).head? = some a →
          ([0, 1, 2] : List ℕ).getLast? = some b → joined kgTriangle b a)) :=
  ⟨⟨by decide, by decide, by decide, by decide⟩,
    hamilton_run_output_valid 3 0 false false kgTriangle [0, 1, 2]
      (by decide) (by decide) (by decide) (by decide)⟩

end KnightGame
